import Mathlib

/-!
# Verification of the Connor deduplication core (`connor/connor.py`)

A shallow embedding of the streaming deduplication engine:

* Python dicts are modelled as association lists (`dictLookup`, `dictInsert`,
  `dictErase`); Python's insertion-ordered dict assignment updates an existing
  entry in place and appends a fresh key at the end, which is exactly what
  `dictInsert` does.  `defaultdict` reads that materialise a missing entry are
  modelled at their use sites.
* Python sets are modelled as duplicate-free lists; `set.add` is
  `setAdd` (no-op when the element is already present), `set.remove` is
  `List.erase` (which raises `KeyError` when the element is absent — the step
  function returns an explicit error in that case).
* `pysam.AlignedSegment` is reduced to the five fields the core reads:
  `query_name`, `reference_name`, `reference_start`, `next_reference_start`,
  `query_sequence`.
* The generator `_build_coordinate_families` becomes a step function
  `famStep` on an explicit state (`family_dict`, `pairing_dict`, manifest)
  plus a trace function `famTrace`; a step either completes normally
  (optionally yielding a coordinate group, recorded together with its key) or
  stops with the state at the moment a `KeyError` is raised.
-/

/-! ## Association-list model of Python dicts -/

def dictLookup {α β : Type} [DecidableEq α] : List (α × β) → α → Option β
  | [], _ => none
  | (k', v) :: m, k => if k' = k then some v else dictLookup m k

def dictInsert {α β : Type} [DecidableEq α] : List (α × β) → α → β → List (α × β)
  | [], k, v => [(k, v)]
  | (k', v') :: m, k, v =>
      if k' = k then (k, v) :: m else (k', v') :: dictInsert m k v

def dictErase {α β : Type} [DecidableEq α] : List (α × β) → α → List (α × β)
  | [], _ => []
  | (k', v') :: m, k => if k' = k then m else (k', v') :: dictErase m k

/-- Keys of an association list. -/
def dictKeys {α β : Type} (m : List (α × β)) : List α := m.map Prod.fst

/-- A Python dict never holds two entries with the same key. -/
def NodupKeys {α β : Type} (m : List (α × β)) : Prop := (dictKeys m).Nodup

/-- `set.add`: append the element unless it is already a member. -/
def setAdd {α : Type} [DecidableEq α] (s : List α) (a : α) : List α :=
  if a ∈ s then s else s ++ [a]

theorem dictInsert_cons_self {α β : Type} [DecidableEq α]
    (m : List (α × β)) (k : α) (v v' : β) :
    dictInsert ((k, v') :: m) k v = (k, v) :: m := by
  simp [dictInsert]

theorem dictErase_cons_self {α β : Type} [DecidableEq α]
    (m : List (α × β)) (k : α) (v' : β) :
    dictErase ((k, v') :: m) k = m := by
  simp [dictErase]

theorem dictLookup_cons_self {α β : Type} [DecidableEq α]
    (m : List (α × β)) (k : α) (v : β) :
    dictLookup ((k, v) :: m) k = some v := by
  simp [dictLookup]

theorem dictLookup_insert {α β : Type} [DecidableEq α]
    (m : List (α × β)) (k k' : α) (v : β) :
    dictLookup (dictInsert m k v) k' = if k = k' then some v else dictLookup m k' := by
  induction m with
  | nil => simp [dictInsert, dictLookup]
  | cons e m ih =>
      obtain ⟨ek, ev⟩ := e
      by_cases hek : ek = k
      · subst hek
        by_cases hk' : ek = k'
        · subst hk'
          simp [dictInsert, dictLookup]
        · simp [dictInsert, dictLookup, hk']
      · by_cases hek' : ek = k'
        · subst hek'
          have hk' : ¬ k = ek := fun h => hek h.symm
          simp [dictInsert, dictLookup, hek, hk']
        · simp [dictInsert, dictLookup, hek, hek', ih]

theorem dictLookup_insert_self {α β : Type} [DecidableEq α]
    (m : List (α × β)) (k : α) (v : β) :
    dictLookup (dictInsert m k v) k = some v := by
  simp [dictLookup_insert]

theorem dictLookup_insert_ne {α β : Type} [DecidableEq α]
    (m : List (α × β)) {k k' : α} (v : β) (h : k ≠ k') :
    dictLookup (dictInsert m k v) k' = dictLookup m k' := by
  simp [dictLookup_insert, h]

theorem dictLookup_append_ne {α β : Type} [DecidableEq α]
    (m : List (α × β)) {k k' : α} (v : β) (h : k ≠ k') :
    dictLookup (m ++ [(k, v)]) k' = dictLookup m k' := by
  induction m with
  | nil => simp [dictLookup, h]
  | cons e m ih =>
      obtain ⟨ek, ev⟩ := e
      by_cases h' : ek = k'
      · simp [dictLookup, h']
      · simp [dictLookup, h', ih]

theorem dictLookup_erase_ne {α β : Type} [DecidableEq α]
    (m : List (α × β)) {k k' : α} (h : k ≠ k') :
    dictLookup (dictErase m k) k' = dictLookup m k' := by
  induction m with
  | nil => simp [dictErase]
  | cons e m ih =>
      obtain ⟨ek, ev⟩ := e
      by_cases hek : ek = k
      · subst hek
        simp [dictErase, dictLookup, fun hkk : ek = k' => h hkk]
      · by_cases hek' : ek = k'
        · subst hek'
          simp [dictErase, dictLookup, hek]
        · simp [dictErase, dictLookup, hek, hek', ih]

theorem mem_dictKeys_insert {α β : Type} [DecidableEq α]
    (m : List (α × β)) (k x : α) (v : β) :
    x ∈ dictKeys (dictInsert m k v) ↔ x ∈ dictKeys m ∨ x = k := by
  induction m with
  | nil => simp [dictInsert, dictKeys]
  | cons e m ih =>
      obtain ⟨ek, ev⟩ := e
      simp only [dictKeys, List.map_cons, List.mem_cons] at ih ⊢
      by_cases hek : ek = k
      · subst hek
        rw [dictInsert_cons_self]
        simp only [List.map_cons, List.mem_cons]
        tauto
      · simp only [dictInsert, if_neg hek, List.map_cons, List.mem_cons, ih]
        tauto

theorem mem_dictKeys_erase {α β : Type} [DecidableEq α]
    (m : List (α × β)) (k x : α) :
    x ∈ dictKeys (dictErase m k) → x ∈ dictKeys m := by
  induction m with
  | nil => simp [dictErase]
  | cons e m ih =>
      obtain ⟨ek, ev⟩ := e
      by_cases hek : ek = k
      · subst hek
        simp only [dictErase, if_pos rfl, dictKeys, List.map_cons, List.mem_cons]
        exact fun h => Or.inr h
      · simp only [dictErase, if_neg hek, dictKeys, List.map_cons, List.mem_cons]
        rintro (h | h)
        · exact Or.inl h
        · exact Or.inr (ih h)

theorem dictLookup_eq_none_of_not_mem_keys {α β : Type} [DecidableEq α]
    {m : List (α × β)} {k : α} (h : k ∉ dictKeys m) : dictLookup m k = none := by
  induction m with
  | nil => simp [dictLookup]
  | cons e m ih =>
      obtain ⟨ek, ev⟩ := e
      simp only [dictKeys, List.map_cons, List.mem_cons, not_or] at h
      simp only [dictLookup, if_neg (fun hh : ek = k => h.1 hh.symm)]
      exact ih h.2

theorem nodupKeys_insert {α β : Type} [DecidableEq α]
    (m : List (α × β)) (k : α) (v : β) (hm : NodupKeys m) :
    NodupKeys (dictInsert m k v) := by
  induction m with
  | nil => simp [dictInsert, NodupKeys, dictKeys]
  | cons e m ih =>
      obtain ⟨ek, ev⟩ := e
      simp only [NodupKeys, dictKeys, List.map_cons, List.nodup_cons] at hm
      by_cases hek : ek = k
      · subst hek
        rw [show NodupKeys (dictInsert ((ek, ev) :: m) ek v)
              = NodupKeys ((ek, v) :: m) from by rw [dictInsert_cons_self]]
        simpa only [NodupKeys, dictKeys, List.map_cons, List.nodup_cons] using hm
      · simp only [NodupKeys, dictKeys, dictInsert, if_neg hek, List.map_cons,
          List.nodup_cons]
        constructor
        · intro hmem
          rcases (mem_dictKeys_insert m k ek v).mp hmem with h | h
          · exact hm.1 h
          · exact hek h
        · exact ih hm.2

theorem nodupKeys_erase {α β : Type} [DecidableEq α]
    (m : List (α × β)) (k : α) (hm : NodupKeys m) :
    NodupKeys (dictErase m k) := by
  induction m with
  | nil => simpa [dictErase] using hm
  | cons e m ih =>
      obtain ⟨ek, ev⟩ := e
      simp only [NodupKeys, dictKeys, List.map_cons, List.nodup_cons] at hm
      by_cases hek : ek = k
      · subst hek
        simp only [dictErase, if_pos rfl]
        exact hm.2
      · simp only [NodupKeys, dictKeys, dictErase, if_neg hek, List.map_cons,
          List.nodup_cons]
        exact ⟨fun hmem => hm.1 (mem_dictKeys_erase m k ek hmem), ih hm.2⟩

theorem dictLookup_erase_self {α β : Type} [DecidableEq α]
    (m : List (α × β)) (k : α) (hm : NodupKeys m) :
    dictLookup (dictErase m k) k = none := by
  induction m with
  | nil => simp [dictErase, dictLookup]
  | cons e m ih =>
      obtain ⟨ek, ev⟩ := e
      simp only [NodupKeys, dictKeys, List.map_cons, List.nodup_cons] at hm
      by_cases hek : ek = k
      · subst hek
        simp only [dictErase, if_pos rfl]
        exact dictLookup_eq_none_of_not_mem_keys hm.1
      · simp only [dictErase, if_neg hek, dictLookup, if_neg hek]
        exact ih hm.2

theorem dictLookup_mem {α β : Type} [DecidableEq α]
    {m : List (α × β)} {k : α} {v : β} (h : dictLookup m k = some v) :
    (k, v) ∈ m := by
  induction m with
  | nil => simp [dictLookup] at h
  | cons e m ih =>
      obtain ⟨ek, ev⟩ := e
      by_cases h' : ek = k
      · subst h'
        simp [dictLookup] at h
        subst h
        exact List.mem_cons_self _ _
      · simp only [dictLookup, if_neg h'] at h
        exact List.mem_cons_of_mem _ (ih h)

theorem dictLookup_eq_none_of_nil {α β : Type} [DecidableEq α]
    {m : List (α × β)} (h : ∀ k, dictLookup m k = none) : m = [] := by
  cases m with
  | nil => rfl
  | cons e m =>
      obtain ⟨ek, ev⟩ := e
      have := h ek
      simp [dictLookup] at this

/-! ## Data model (`connor.py` classes) -/

/-- The fields of `pysam.AlignedSegment` that the core reads. -/
structure AlignedSegment where
  query_name : String
  reference_name : String
  reference_start : Int
  next_reference_start : Int
  query_sequence : String
deriving DecidableEq, Repr

/-- `(chrom, smaller position, larger position)`. -/
abbrev CoordinateKey : Type := String × Int × Int

/-- `LightweightAlignment.__init__`: name plus the canonical coordinate key,
with the two positions ordered by the `pos1 < pos2` test of the source. -/
structure LightweightAlignment where
  name : String
  key : CoordinateKey
deriving DecidableEq, Repr

def LightweightAlignment.ofSegment (aseg : AlignedSegment) : LightweightAlignment :=
  { name := aseg.query_name
    key :=
      if aseg.reference_start < aseg.next_reference_start then
        (aseg.reference_name, aseg.reference_start, aseg.next_reference_start)
      else
        (aseg.reference_name, aseg.next_reference_start, aseg.reference_start) }

/-- `PairedAlignment`: the left and right aligned segments of one read pair.
`__eq__` compares `__dict__`, i.e. is structural, matching `DecidableEq`. -/
structure PairedAlignment where
  left_alignment : AlignedSegment
  right_alignment : AlignedSegment
deriving DecidableEq, Repr

/-- A coordinate group: the Python code keeps a `set` of `PairedAlignment`s;
we keep a duplicate-free list. -/
abbrev CoordGroup : Type := List PairedAlignment

/-- The manifest: `CoordinateKey → set of read names still owed`. -/
abbrev Manifest : Type := List (CoordinateKey × List String)

/-- `_build_coordinate_read_name_manifest`: one `defaultdict(set)` pass,
`af_dict[lwa.key].add(lwa.name)` for each lightweight alignment. -/
def buildCoordinateReadNameManifest (lw_aligns : List LightweightAlignment) :
    Manifest :=
  lw_aligns.foldl
    (fun m lwa =>
      dictInsert m lwa.key (setAdd ((dictLookup m lwa.key).getD []) lwa.name))
    []

/-! ## `_build_coordinate_families` as a step function -/

/-- Generator-local state: `family_dict`, `pairing_dict` and the (mutated)
manifest. -/
structure FamState where
  family_dict : List (CoordinateKey × CoordGroup)
  pairing_dict : List (String × AlignedSegment)
  manifest : Manifest
deriving DecidableEq, Repr

/-- Outcome of processing one aligned segment: either the loop body completes
(optionally yielding a coordinate group, recorded with its key), or a
`KeyError` escapes from `set.remove`; in that case we keep the state exactly
as it is at the moment the exception is raised (the pairing pop and the
`family_dict[key].add` have already happened, and a missing manifest key has
already been materialised as an empty entry by `defaultdict.__getitem__`). -/
inductive StepOut where
  | ok (st : FamState) (y : Option (CoordinateKey × CoordGroup))
  | err (st : FamState)
deriving DecidableEq, Repr

/-- The state carried by a step outcome. -/
def StepOut.state : StepOut → FamState
  | .ok st _ => st
  | .err st => st

/-- One iteration of the `for aseg in aligned_segments` loop of
`_build_coordinate_families`. -/
def famStep (st : FamState) (aseg : AlignedSegment) : StepOut :=
  match dictLookup st.pairing_dict aseg.query_name with
  | none =>
      -- `pairing_dict[aseg.query_name] = aseg`
      .ok { st with pairing_dict := dictInsert st.pairing_dict aseg.query_name aseg }
        none
  | some stored =>
      -- `paired_align = PairedAlignment(pairing_dict.pop(...), aseg)`
      let paired_align : PairedAlignment := ⟨stored, aseg⟩
      let key := (LightweightAlignment.ofSegment aseg).key
      let pairing1 := dictErase st.pairing_dict aseg.query_name
      -- `family_dict[key].add(paired_align)` (defaultdict)
      let family1 := dictInsert st.family_dict key
        (setAdd ((dictLookup st.family_dict key).getD []) paired_align)
      -- `coord_read_name_manifest[key].remove(aseg.query_name)`
      match dictLookup st.manifest key with
      | none =>
          -- defaultdict materialises an empty set, then `remove` raises
          .err { family_dict := family1, pairing_dict := pairing1,
                 manifest := st.manifest ++ [(key, [])] }
      | some owed =>
          if aseg.query_name ∈ owed then
            let owed1 := owed.erase aseg.query_name
            let manifest1 := dictInsert st.manifest key owed1
            if owed1 = [] then
              -- `yield family_dict.pop(key)`
              .ok { family_dict := dictErase family1 key,
                    pairing_dict := pairing1, manifest := manifest1 }
                (some (key, (dictLookup family1 key).getD []))
            else
              .ok { family_dict := family1, pairing_dict := pairing1,
                    manifest := manifest1 } none
          else
            -- `set.remove` raises `KeyError`
            .err { family_dict := family1, pairing_dict := pairing1,
                   manifest := st.manifest }

/-- The whole second pass: the list of step outcomes, cut short at the first
`KeyError` (the exception propagates out of the generator). -/
def famTrace : List AlignedSegment → FamState → List StepOut
  | [], _ => []
  | aseg :: rest, st =>
      match famStep st aseg with
      | .ok st' y => .ok st' y :: famTrace rest st'
      | .err st' => [.err st']

/-- The coordinate groups yielded along a trace, with their keys. -/
def traceYields (tr : List StepOut) : List (CoordinateKey × CoordGroup) :=
  tr.filterMap fun o =>
    match o with
    | .ok _ (some kg) => some kg
    | _ => none

/-- The generator's state at entry: empty `family_dict` and `pairing_dict`,
plus the manifest built by the first pass. -/
def initState (manifest : Manifest) : FamState :=
  { family_dict := [], pairing_dict := [], manifest := manifest }

/-! ## Tag ranking and partitioning -/

/-- A barcode tag: `(left prefix, right prefix)`. -/
abbrev Tag : Type := String × String

/-- The tag of a pair: `query_sequence[0:3]` of each mate. -/
def pairTag (p : PairedAlignment) : Tag :=
  (p.left_alignment.query_sequence.take 3, p.right_alignment.query_sequence.take 3)

/-- Python string comparison (lexicographic on code points), as a boolean
function on the underlying character lists so that it computes by kernel
reduction. -/
def lexLtB : List Char → List Char → Bool
  | [], [] => false
  | [], _ :: _ => true
  | _ :: _, [] => false
  | a :: as, b :: bs => if a < b then true else if b < a then false else lexLtB as bs

/-- Python `<` on strings. -/
def strLt (s t : String) : Prop := lexLtB s.data t.data = true

instance : DecidableRel strLt := fun s t => by
  unfold strLt
  infer_instance

/-- Python `<` on tag tuples: lexicographic comparison of the pair. -/
def tagLt (a b : Tag) : Prop :=
  strLt a.1 b.1 ∨ (a.1 = b.1 ∧ strLt a.2 b.2)

instance : DecidableRel tagLt := fun a b => by
  unfold tagLt
  infer_instance

/-- Python `<=` on tag tuples. -/
def tagLe (a b : Tag) : Prop := tagLt a b ∨ a = b

instance : DecidableRel tagLe := fun a b => by
  unfold tagLe
  infer_instance

/-- Occurrences of tag `t` among the pairs of a coordinate group: the value
`tag_count[t]` computed by `_rank_tags`. -/
def tagCount (g : CoordGroup) (t : Tag) : Nat :=
  (g.map pairTag).countP (fun x => decide (x = t))

/-- The sort key of `_rank_tags`: `sorted(..., key=lambda x: (-1 * x[1], x[0]))`
orders two distinct tags by descending count, ties broken by ascending
lexicographic order on the tag tuple. -/
def rankRel (g : CoordGroup) (a b : Tag) : Prop :=
  tagCount g b < tagCount g a ∨ (tagCount g a = tagCount g b ∧ tagLe a b)

instance (g : CoordGroup) : DecidableRel (rankRel g) := fun a b => by
  unfold rankRel
  infer_instance

/-- `_rank_tags`: count tags, then sort the distinct tags by
`(-count, tag)`.  Python's stable `sorted` with this key (injective on the
distinct tags of the dict) produces the unique list of the distinct observed
tags that is sorted under `rankRel`; `insertionSort` over the deduplicated
tag list computes exactly that list. -/
def rankTags (g : CoordGroup) : List Tag :=
  List.insertionSort (rankRel g) (g.map pairTag).dedup

/-- The `left_tag_id == best_tag[0] or right_tag_id == best_tag[1]` test of
`_build_tag_families`. -/
def tagMatch (p : PairedAlignment) (t : Tag) : Bool :=
  decide ((pairTag p).1 = t.1) || decide ((pairTag p).2 = t.2)

/-- The loop body of `_build_tag_families` for one pair: find the first
ranked tag that matches (`for best_tag in ranked_tags: ... break`), and add
the pair to that tag's set (`tag_aligns[best_tag].add(paired_align)`, a
`defaultdict(set)`); if no tag matches, the pair is dropped. -/
def btfStep (ranked_tags : List Tag) (acc : List (Tag × CoordGroup))
    (paired_align : PairedAlignment) : List (Tag × CoordGroup) :=
  match ranked_tags.find? (fun t => tagMatch paired_align t) with
  | some best_tag =>
      dictInsert acc best_tag
        (setAdd ((dictLookup acc best_tag).getD []) paired_align)
  | none => acc

/-- `_build_tag_families`: scan the ranked tags for each pair, first match
wins (`break`); a pair matching no tag is dropped.  The Python function
returns `tag_aligns.values()`; we keep the whole `defaultdict(set)` so the
clusters stay associated with their tags (`values()` is `List.map Prod.snd`
of this). -/
def buildTagFamilies (tagged_paired_aligns : CoordGroup) (ranked_tags : List Tag) :
    List (Tag × CoordGroup) :=
  tagged_paired_aligns.foldl (btfStep ranked_tags) []

/-- `_build_consensus_pair`: `set.pop()` — an arbitrary member; the model
takes the first element of the cluster list. -/
def buildConsensusPair (alignment_family : CoordGroup) : Option PairedAlignment :=
  alignment_family.head?

/-! ## Concrete inputs used by example claims and counterexamples -/

/-- A read pair at coordinate `("1", 10, 20)` with the given name and the two
mates' sequences; each mate records the other's start. -/
def examplePair (n : String) (ls rs : String) : PairedAlignment :=
  ⟨⟨n, "1", 10, 20, ls⟩, ⟨n, "1", 20, 10, rs⟩⟩

/-- The coordinate group of the spec's §8 example: 4 pairs with tags
`(AAA,CCC)×3` and `(ATT,CCC)×1`. -/
def exampleGroupC2 : CoordGroup :=
  [examplePair "a" "AAAG" "CCCG", examplePair "b" "AAAT" "CCCT",
   examplePair "c" "AAAC" "CCCA", examplePair "d" "ATTG" "CCCG"]

/-! ## C4: coordinate-key symmetry -/

/-- C4: for every chromosome id and positions `a`, `b`, the coordinate key
built by `LightweightAlignment` from own-position `a` / mate-position `b`
equals the key built from own-position `b` / mate-position `a` — even for
two different reads (names and sequences may differ), so both mates of a
pair on one chromosome compute an identical key. -/
theorem C4_key_symmetric (nm nm2 chrom seq seq2 : String) (a b : Int) :
    (LightweightAlignment.ofSegment ⟨nm, chrom, a, b, seq⟩).key =
      (LightweightAlignment.ofSegment ⟨nm2, chrom, b, a, seq2⟩).key := by
  by_cases h : a < b
  · have h2 : ¬ b < a := not_lt.mpr h.le
    simp [LightweightAlignment.ofSegment, h, h2]
  · by_cases h3 : b < a
    · simp [LightweightAlignment.ofSegment, h, h3]
    · have hab : a = b := le_antisymm (not_lt.mp h3) (not_lt.mp h)
      subst hab
      simp [LightweightAlignment.ofSegment]

/-! ## C2: the spec's worked example -/

/-- C2 counterexample: on the example group the ranking is as the claim says,
but the partitioner does **not** produce clusters of sizes 3 and 1 with two
representatives: the `(ATT,CCC)` pair's right barcode `CCC` matches the
top-ranked tag `(AAA,CCC)` under the OR rule, so all four pairs join one
cluster and only one representative is emitted.  The claim, instantiated at
this group, is false. -/
theorem C2_counterexample :
    ¬ (rankTags exampleGroupC2 = [("AAA", "CCC"), ("ATT", "CCC")] ∧
        List.Perm
          ((buildTagFamilies exampleGroupC2 (rankTags exampleGroupC2)).map
            (fun c => c.2.length)) [3, 1] ∧
        ((buildTagFamilies exampleGroupC2 (rankTags exampleGroupC2)).filterMap
          (fun c => buildConsensusPair c.2)).length = 2) := by
  decide

/-- C2 amended: on the example group `_rank_tags` returns
`[(AAA,CCC), (ATT,CCC)]`, but `_build_tag_families` assigns all four pairs to
the top tag `(AAA,CCC)` (the `(ATT,CCC)` pair matches it through its right
barcode, OR rule), yielding a single cluster of size 4 and exactly one
representative pair for the coordinate. -/
theorem C2_amended :
    rankTags exampleGroupC2 = [("AAA", "CCC"), ("ATT", "CCC")] ∧
      buildTagFamilies exampleGroupC2 (rankTags exampleGroupC2) =
        [(("AAA", "CCC"), exampleGroupC2)] ∧
      ((buildTagFamilies exampleGroupC2 (rankTags exampleGroupC2)).filterMap
        (fun c => buildConsensusPair c.2)).length = 1 := by
  decide

/-! ## Order facts about the `_rank_tags` sort key -/

theorem lexLtB_irrefl : ∀ as : List Char, lexLtB as as = false
  | [] => rfl
  | a :: as => by
      simp only [lexLtB, lt_irrefl, if_false]
      exact lexLtB_irrefl as

theorem lexLtB_asymm : ∀ as bs : List Char,
    lexLtB as bs = true → lexLtB bs as = false
  | [], [] => by simp [lexLtB]
  | [], _ :: _ => by simp [lexLtB]
  | _ :: _, [] => by simp [lexLtB]
  | a :: as, b :: bs => by
      simp only [lexLtB]
      by_cases hab : a < b
      · simp [hab, not_lt_of_gt hab, lt_irrefl]
      · by_cases hba : b < a
        · simp [hab, hba]
        · simp only [if_neg hab, if_neg hba]
          exact lexLtB_asymm as bs

theorem lexLtB_trans : ∀ as bs cs : List Char,
    lexLtB as bs = true → lexLtB bs cs = true → lexLtB as cs = true
  | [], [], _ => by simp [lexLtB]
  | [], _ :: _, [] => by simp [lexLtB]
  | [], _ :: _, _ :: _ => by simp [lexLtB]
  | _ :: _, [], _ => by simp [lexLtB]
  | a :: as, b :: bs, [] => by simp [lexLtB]
  | a :: as, b :: bs, c :: cs => by
      simp only [lexLtB]
      by_cases hab : a < b
      · by_cases hbc : b < c
        · simp [hab, hbc, lt_trans hab hbc]
        · by_cases hcb : c < b
          · intro _ h
            simp [hcb, not_lt_of_gt hcb] at h
          · have hbc' : b = c := le_antisymm (not_lt.mp hcb) (not_lt.mp hbc)
            subst hbc'
            simp [hab]
      · by_cases hba : b < a
        · intro h
          simp [hab, hba] at h
        · have hab' : a = b := le_antisymm (not_lt.mp hba) (not_lt.mp hab)
          subst hab'
          simp only [if_neg hab, lt_irrefl, if_false, if_neg hab]
          by_cases hac : a < c
          · simp [hac]
          · by_cases hca : c < a
            · simp [hca, not_lt_of_gt hca]
            · simp only [if_neg hac, if_neg hca]
              exact lexLtB_trans as bs cs
  termination_by as bs cs => as.length

theorem lexLtB_trichotomy : ∀ as bs : List Char,
    lexLtB as bs = true ∨ as = bs ∨ lexLtB bs as = true
  | [], [] => Or.inr (Or.inl rfl)
  | [], _ :: _ => Or.inl rfl
  | _ :: _, [] => Or.inr (Or.inr rfl)
  | a :: as, b :: bs => by
      rcases lt_trichotomy a b with h | h | h
      · exact Or.inl (by simp [lexLtB, h])
      · subst h
        rcases lexLtB_trichotomy as bs with h2 | h2 | h2
        · exact Or.inl (by simp [lexLtB, lt_irrefl, h2])
        · exact Or.inr (Or.inl (by rw [h2]))
        · exact Or.inr (Or.inr (by simp [lexLtB, lt_irrefl, h2]))
      · exact Or.inr (Or.inr (by simp [lexLtB, h, not_lt_of_gt h]))

theorem string_eq_of_data {s t : String} (h : s.data = t.data) : s = t := by
  cases s
  cases t
  exact congrArg String.mk h

theorem strLt_asymm {s t : String} (h : strLt s t) : ¬ strLt t s := by
  unfold strLt at h ⊢
  simp [lexLtB_asymm _ _ h]

theorem strLt_trans {s t u : String} (h1 : strLt s t) (h2 : strLt t u) :
    strLt s u := lexLtB_trans _ _ _ h1 h2

theorem strLt_trichotomy (s t : String) : strLt s t ∨ s = t ∨ strLt t s := by
  rcases lexLtB_trichotomy s.data t.data with h | h | h
  · exact Or.inl h
  · exact Or.inr (Or.inl (string_eq_of_data h))
  · exact Or.inr (Or.inr h)

theorem tagLt_asymm {a b : Tag} (h : tagLt a b) : ¬ tagLt b a := by
  rcases h with h | ⟨he, h⟩
  · rintro (h2 | ⟨he2, h2⟩)
    · exact strLt_asymm h h2
    · rw [he2] at h
      exact strLt_asymm h h
  · rintro (h2 | ⟨he2, h2⟩)
    · rw [he] at h2
      exact strLt_asymm h2 h2
    · exact strLt_asymm h h2

theorem tagLt_trans {a b c : Tag} (h1 : tagLt a b) (h2 : tagLt b c) :
    tagLt a c := by
  rcases h1 with h1 | ⟨he1, h1⟩
  · rcases h2 with h2 | ⟨he2, h2⟩
    · exact Or.inl (strLt_trans h1 h2)
    · exact Or.inl (he2 ▸ h1)
  · rcases h2 with h2 | ⟨he2, h2⟩
    · exact Or.inl (he1 ▸ h2)
    · exact Or.inr ⟨he1.trans he2, strLt_trans h1 h2⟩

theorem tagLt_trichotomy (a b : Tag) : tagLt a b ∨ a = b ∨ tagLt b a := by
  obtain ⟨a1, a2⟩ := a
  obtain ⟨b1, b2⟩ := b
  rcases strLt_trichotomy a1 b1 with h | h | h
  · exact Or.inl (Or.inl h)
  · subst h
    rcases strLt_trichotomy a2 b2 with h2 | h2 | h2
    · exact Or.inl (Or.inr ⟨rfl, h2⟩)
    · subst h2
      exact Or.inr (Or.inl rfl)
    · exact Or.inr (Or.inr (Or.inr ⟨rfl, h2⟩))
  · exact Or.inr (Or.inr (Or.inl h))

theorem tagLe_total (a b : Tag) : tagLe a b ∨ tagLe b a := by
  rcases tagLt_trichotomy a b with h | h | h
  · exact Or.inl (Or.inl h)
  · exact Or.inl (Or.inr h)
  · exact Or.inr (Or.inl h)

theorem tagLe_antisymm {a b : Tag} (h1 : tagLe a b) (h2 : tagLe b a) : a = b := by
  rcases h1 with h1 | h1
  · rcases h2 with h2 | h2
    · exact absurd h2 (tagLt_asymm h1)
    · exact h2.symm
  · exact h1

theorem tagLe_trans {a b c : Tag} (h1 : tagLe a b) (h2 : tagLe b c) :
    tagLe a c := by
  rcases h1 with h1 | h1
  · rcases h2 with h2 | h2
    · exact Or.inl (tagLt_trans h1 h2)
    · exact Or.inl (h2 ▸ h1)
  · exact h1 ▸ h2

instance (g : CoordGroup) : IsTotal Tag (rankRel g) where
  total a b := by
    unfold rankRel
    rcases Nat.lt_trichotomy (tagCount g a) (tagCount g b) with h | h | h
    · exact Or.inr (Or.inl h)
    · rcases tagLe_total a b with h2 | h2
      · exact Or.inl (Or.inr ⟨h, h2⟩)
      · exact Or.inr (Or.inr ⟨h.symm, h2⟩)
    · exact Or.inl (Or.inl h)

instance (g : CoordGroup) : IsTrans Tag (rankRel g) where
  trans a b c h1 h2 := by
    unfold rankRel at h1 h2 ⊢
    rcases h1 with h1 | ⟨he1, h1⟩
    · rcases h2 with h2 | ⟨he2, h2⟩
      · exact Or.inl (lt_trans h2 h1)
      · exact Or.inl (he2 ▸ h1)
    · rcases h2 with h2 | ⟨he2, h2⟩
      · exact Or.inl (he1 ▸ h2)
      · exact Or.inr ⟨he1.trans he2, tagLe_trans h1 h2⟩

instance (g : CoordGroup) : IsAntisymm Tag (rankRel g) where
  antisymm a b h1 h2 := by
    unfold rankRel at h1 h2
    rcases h1 with h1 | ⟨he1, h1⟩
    · rcases h2 with h2 | ⟨he2, h2⟩
      · exact absurd h1 (not_lt_of_gt h2)
      · exact absurd h1 (he2 ▸ lt_irrefl _)
    · rcases h2 with h2 | ⟨he2, h2⟩
      · exact absurd h2 (he1 ▸ lt_irrefl _)
      · exact tagLe_antisymm h1 h2

/-! ## C6: shape of the tag ranking -/

/-- C6: `_rank_tags` returns exactly the distinct tags observed in the group,
with no duplicates, sorted so that earlier tags have strictly larger counts,
ties broken by ascending lexicographic order on the tag tuple. -/
theorem C6_ranking_sorted (g : CoordGroup) :
    (rankTags g).Nodup ∧
      (∀ t : Tag, t ∈ rankTags g ↔ ∃ p ∈ g, pairTag p = t) ∧
      (rankTags g).Pairwise (fun a b =>
        tagCount g b < tagCount g a ∨
          (tagCount g a = tagCount g b ∧ tagLt a b)) := by
  have hperm := List.perm_insertionSort (rankRel g) (g.map pairTag).dedup
  have hnodup : (rankTags g).Nodup :=
    hperm.nodup_iff.mpr (List.nodup_dedup _)
  refine ⟨hnodup, ?_, ?_⟩
  · intro t
    rw [show (t ∈ rankTags g ↔ t ∈ (g.map pairTag).dedup) from hperm.mem_iff,
      List.mem_dedup, List.mem_map]
  · have hsorted : (rankTags g).Pairwise (rankRel g) :=
      List.sorted_insertionSort (rankRel g) _
    have hne : (rankTags g).Pairwise (fun a b => a ≠ b) := hnodup
    refine (hsorted.and hne).imp ?_
    rintro a b ⟨hr, hne'⟩
    rcases hr with hr | ⟨he, hr⟩
    · exact Or.inl hr
    · rcases hr with hr | hr
      · exact Or.inr ⟨he, hr⟩
      · exact absurd hr hne'

/-! ## C7: input-order independence of the ranking -/

/-- C7: `_rank_tags` depends only on the multiset of tags of its input —
permuting the pairs of a coordinate group leaves the ranking unchanged. -/
theorem C7_rank_tags_perm_invariant (g1 g2 : CoordGroup)
    (hp : List.Perm g1 g2) : rankTags g1 = rankTags g2 := by
  have hcount : ∀ t : Tag, tagCount g1 t = tagCount g2 t := fun t => by
    unfold tagCount
    exact (hp.map pairTag).countP_eq _
  have hrel : rankRel g1 = rankRel g2 := by
    funext a b
    unfold rankRel
    rw [hcount a, hcount b]
  have hdperm : List.Perm (g1.map pairTag).dedup (g2.map pairTag).dedup :=
    (hp.map pairTag).dedup
  have hperm : List.Perm (rankTags g1) (rankTags g2) :=
    ((List.perm_insertionSort (rankRel g1) _).trans hdperm).trans
      (List.perm_insertionSort (rankRel g2) _).symm
  have hs1 : List.Sorted (rankRel g1) (rankTags g1) :=
    List.sorted_insertionSort (rankRel g1) _
  have hs2 : List.Sorted (rankRel g1) (rankTags g2) := by
    rw [hrel]
    exact List.sorted_insertionSort (rankRel g2) _
  exact List.eq_of_perm_of_sorted hperm hs1 hs2

/-- C7 witness: a concrete two-element permutation. -/
theorem C7_witness :
    rankTags [examplePair "a" "AAAG" "CCCG", examplePair "d" "ATTG" "CCCG"] =
      rankTags [examplePair "d" "ATTG" "CCCG", examplePair "a" "AAAG" "CCCG"] :=
  C7_rank_tags_perm_invariant _ _ (by decide)

/-! ## C5 and C10: the tag partitioner -/

theorem mem_setAdd {α : Type} [DecidableEq α] (s : List α) (a x : α) :
    x ∈ setAdd s a ↔ x ∈ s ∨ x = a := by
  unfold setAdd
  by_cases h : a ∈ s
  · simp only [if_pos h]
    constructor
    · exact fun hx => Or.inl hx
    · rintro (hx | hx)
      · exact hx
      · exact hx ▸ h
  · simp [if_neg h]

theorem length_setAdd_of_not_mem {α : Type} [DecidableEq α]
    {s : List α} {a : α} (h : a ∉ s) : (setAdd s a).length = s.length + 1 := by
  simp [setAdd, h]

/-- `List.find?` returns `some t` exactly when `t` is the first element
satisfying the predicate: everything before it fails the test. -/
theorem find?_eq_some_iff_first {α : Type} (f : α → Bool) :
    ∀ (l : List α) (t : α),
      l.find? f = some t ↔
        ∃ l1 l2, l = l1 ++ t :: l2 ∧ f t = true ∧ ∀ u ∈ l1, f u = false := by
  intro l
  induction l with
  | nil =>
      intro t
      simp [List.find?]
  | cons a l ih =>
      intro t
      by_cases hfa : f a = true
      · rw [List.find?_cons_of_pos _ hfa]
        constructor
        · intro h
          obtain rfl : a = t := by simpa using h
          exact ⟨[], l, rfl, hfa, by simp⟩
        · rintro ⟨l1, l2, heq, hft, hl1⟩
          cases l1 with
          | nil =>
              simp only [List.nil_append, List.cons.injEq] at heq
              rw [heq.1]
          | cons b l1 =>
              simp only [List.cons_append, List.cons.injEq] at heq
              have hb : f b = false := hl1 b (List.mem_cons_self _ _)
              rw [heq.1] at hfa
              rw [hb] at hfa
              cases hfa
      · have hfa' : f a = false := by
          cases h : f a
          · rfl
          · exact absurd h hfa
        rw [List.find?_cons_of_neg _ (by simp [hfa'])]
        rw [ih t]
        constructor
        · rintro ⟨l1, l2, heq, hft, hl1⟩
          refine ⟨a :: l1, l2, by rw [heq, List.cons_append], hft, ?_⟩
          intro u hu
          rcases List.mem_cons.mp hu with hu | hu
          · exact hu ▸ hfa'
          · exact hl1 u hu
        · rintro ⟨l1, l2, heq, hft, hl1⟩
          cases l1 with
          | nil =>
              simp only [List.nil_append, List.cons.injEq] at heq
              rw [heq.1] at hfa'
              rw [hfa'] at hft
              cases hft
          | cons b l1 =>
              simp only [List.cons_append, List.cons.injEq] at heq
              exact ⟨l1, l2, heq.2, hft,
                fun u hu => hl1 u (List.mem_cons_of_mem _ hu)⟩

/-- Cluster membership after one partitioner step. -/
theorem btfStep_mem (ranked : List Tag) (acc : List (Tag × CoordGroup))
    (p q : PairedAlignment) (t : Tag) :
    (∃ cl, dictLookup (btfStep ranked acc p) t = some cl ∧ q ∈ cl) ↔
      ((∃ cl, dictLookup acc t = some cl ∧ q ∈ cl) ∨
        (q = p ∧ ranked.find? (tagMatch p) = some t)) := by
  unfold btfStep
  cases hf : ranked.find? (fun u => tagMatch p u) with
  | none => simp
  | some bt =>
      dsimp only
      by_cases hbt : bt = t
      · subst hbt
        simp only [Option.some.injEq, and_true]
        cases hl : dictLookup acc bt with
        | none =>
            simp only [hl, Option.getD_none, dictLookup_insert_self,
              Option.some.injEq]
            constructor
            · rintro ⟨cl, hcl, hq⟩
              rw [← hcl] at hq
              rcases (mem_setAdd _ _ _).mp hq with h | h
              · cases h
              · exact Or.inr h
            · rintro (⟨cl, hcl, _⟩ | hq)
              · cases hcl
              · exact ⟨setAdd [] p, rfl, (mem_setAdd _ _ _).mpr (Or.inr hq)⟩
        | some cl0 =>
            simp only [hl, Option.getD_some, dictLookup_insert_self,
              Option.some.injEq]
            constructor
            · rintro ⟨cl, hcl, hq⟩
              rw [← hcl] at hq
              rcases (mem_setAdd _ _ _).mp hq with h | h
              · exact Or.inl ⟨cl0, rfl, h⟩
              · exact Or.inr h
            · rintro (⟨cl, hcl, hq⟩ | hq)
              · obtain rfl : cl0 = cl := by simpa using hcl
                exact ⟨setAdd cl0 p, rfl, (mem_setAdd _ _ _).mpr (Or.inl hq)⟩
              · exact ⟨setAdd cl0 p, rfl, (mem_setAdd _ _ _).mpr (Or.inr hq)⟩
      · rw [dictLookup_insert_ne _ _ hbt]
        simp [hbt]

/-- Cluster membership after folding the partitioner over a list of pairs. -/
theorem btf_fold_mem (ranked : List Tag) :
    ∀ (ps : CoordGroup) (acc : List (Tag × CoordGroup))
      (q : PairedAlignment) (t : Tag),
      (∃ cl, dictLookup (ps.foldl (btfStep ranked) acc) t = some cl ∧ q ∈ cl) ↔
        ((∃ cl, dictLookup acc t = some cl ∧ q ∈ cl) ∨
          (q ∈ ps ∧ ranked.find? (tagMatch q) = some t)) := by
  intro ps
  induction ps with
  | nil =>
      intro acc q t
      simp
  | cons p ps ih =>
      intro acc q t
      rw [List.foldl_cons, ih, btfStep_mem]
      constructor
      · rintro ((h | ⟨rfl, h⟩) | ⟨hq, h⟩)
        · exact Or.inl h
        · exact Or.inr ⟨List.mem_cons_self _ _, h⟩
        · exact Or.inr ⟨List.mem_cons_of_mem _ hq, h⟩
      · rintro (h | ⟨hq, h⟩)
        · exact Or.inl (Or.inl h)
        · rcases List.mem_cons.mp hq with rfl | hq
          · exact Or.inl (Or.inr ⟨rfl, h⟩)
          · exact Or.inr ⟨hq, h⟩

/-- C5: a pair of the coordinate group lands in the cluster of tag `t` iff
`t` is the **first** tag of the ranking whose left prefix equals the pair's
left barcode or whose right prefix equals the pair's right barcode (OR rule,
first match wins); in particular it lies in no other tag's cluster. -/
theorem C5_first_fit_or_rule (g : CoordGroup) (ranked : List Tag)
    (p : PairedAlignment) (hp : p ∈ g) (t : Tag) :
    (∃ cl, dictLookup (buildTagFamilies g ranked) t = some cl ∧ p ∈ cl) ↔
      (∃ l1 l2, ranked = l1 ++ t :: l2 ∧ tagMatch p t = true ∧
        ∀ u ∈ l1, tagMatch p u = false) := by
  unfold buildTagFamilies
  rw [btf_fold_mem]
  constructor
  · rintro (⟨cl, hcl, _⟩ | ⟨_, hfind⟩)
    · cases hcl
    · exact (find?_eq_some_iff_first (tagMatch p) ranked t).mp hfind
  · intro h
    exact Or.inr ⟨hp, (find?_eq_some_iff_first (tagMatch p) ranked t).mpr h⟩

/-- C5 witness: in the spec's example group with the ranking
`[(AAA,CCC), (ATT,CCC)]`, the `(ATT,CCC)` pair lands in the `(AAA,CCC)`
cluster — its right barcode matches, and `(AAA,CCC)` is the first such tag. -/
theorem C5_witness :
    ∃ cl, dictLookup
        (buildTagFamilies exampleGroupC2 [("AAA", "CCC"), ("ATT", "CCC")])
        ("AAA", "CCC") = some cl ∧ examplePair "d" "ATTG" "CCCG" ∈ cl :=
  (C5_first_fit_or_rule exampleGroupC2 [("AAA", "CCC"), ("ATT", "CCC")]
      (examplePair "d" "ATTG" "CCCG") (by decide) ("AAA", "CCC")).mpr
    ⟨[], [("ATT", "CCC")], rfl, by decide, by decide⟩

/-- The ranking contains exactly the tags observed in the group. -/
theorem mem_rankTags (g : CoordGroup) (t : Tag) :
    t ∈ rankTags g ↔ ∃ p ∈ g, pairTag p = t := by
  have hperm := List.perm_insertionSort (rankRel g) (g.map pairTag).dedup
  rw [show (t ∈ rankTags g ↔ t ∈ (g.map pairTag).dedup) from hperm.mem_iff,
    List.mem_dedup, List.mem_map]

/-- Total size of all clusters produced by the partitioner. -/
def clusterSizeSum (m : List (Tag × CoordGroup)) : Nat :=
  (m.map (fun c => c.2.length)).sum

theorem clusterSizeSum_insert_none (m : List (Tag × CoordGroup)) (k : Tag)
    (v : CoordGroup) (h : dictLookup m k = none) :
    clusterSizeSum (dictInsert m k v) = clusterSizeSum m + v.length := by
  induction m with
  | nil => simp [dictInsert, clusterSizeSum]
  | cons e m ih =>
      obtain ⟨ek, ev⟩ := e
      by_cases hek : ek = k
      · subst hek
        rw [dictLookup_cons_self] at h
        cases h
      · simp only [dictLookup, if_neg hek] at h
        simp only [dictInsert, if_neg hek, clusterSizeSum, List.map_cons,
          List.sum_cons] at ih ⊢
        rw [ih h]
        omega

theorem clusterSizeSum_insert_some (m : List (Tag × CoordGroup)) (k : Tag)
    (v cl : CoordGroup) (h : dictLookup m k = some cl) :
    clusterSizeSum (dictInsert m k v) + cl.length =
      clusterSizeSum m + v.length := by
  induction m with
  | nil => cases h
  | cons e m ih =>
      obtain ⟨ek, ev⟩ := e
      by_cases hek : ek = k
      · subst hek
        rw [dictLookup_cons_self] at h
        obtain rfl : ev = cl := by simpa using h
        rw [dictInsert_cons_self]
        simp only [clusterSizeSum, List.map_cons, List.sum_cons]
        omega
      · simp only [dictLookup, if_neg hek] at h
        simp only [dictInsert, if_neg hek, clusterSizeSum, List.map_cons,
          List.sum_cons] at ih ⊢
        have := ih h
        omega

/-- Folding the partitioner over pairs that all match some ranked tag, none
of which is already present in a cluster, grows the total cluster size by
exactly the number of pairs. -/
theorem btf_fold_sizes (ranked : List Tag) :
    ∀ (ps : CoordGroup) (acc : List (Tag × CoordGroup)),
      (∀ p ∈ ps, (ranked.find? (tagMatch p)).isSome) →
      (∀ t cl, dictLookup acc t = some cl → ∀ q ∈ cl, q ∉ ps) →
      ps.Nodup →
      clusterSizeSum (ps.foldl (btfStep ranked) acc) =
        clusterSizeSum acc + ps.length := by
  intro ps
  induction ps with
  | nil =>
      intro acc _ _ _
      simp
  | cons p ps ih =>
      intro acc htotal hdisj hnd
      rw [List.foldl_cons]
      obtain ⟨bt, hbt⟩ : ∃ bt, ranked.find? (tagMatch p) = some bt :=
        Option.isSome_iff_exists.mp (htotal p (List.mem_cons_self _ _))
      have hstep : clusterSizeSum (btfStep ranked acc p) =
          clusterSizeSum acc + 1 := by
        unfold btfStep
        rw [hbt]
        dsimp only
        cases hl : dictLookup acc bt with
        | none =>
            rw [clusterSizeSum_insert_none _ _ _ hl]
            simp [setAdd]
        | some cl =>
            have hpn : p ∉ cl := fun hpc =>
              hdisj bt cl hl p hpc (List.mem_cons_self _ _)
            have h1 := clusterSizeSum_insert_some acc bt (setAdd cl p) cl hl
            have h2 := length_setAdd_of_not_mem hpn
            simp only [Option.getD_some]
            omega
      have hdisj' : ∀ t cl, dictLookup (btfStep ranked acc p) t = some cl →
          ∀ q ∈ cl, q ∉ ps := by
        intro t cl hcl q hq
        rcases (btfStep_mem ranked acc p q t).mp ⟨cl, hcl, hq⟩ with
          ⟨cl0, hcl0, hq0⟩ | ⟨rfl, _⟩
        · exact fun hqps => hdisj t cl0 hcl0 q hq0 (List.mem_cons_of_mem _ hqps)
        · exact (List.nodup_cons.mp hnd).1
      have htotal' : ∀ q ∈ ps, (ranked.find? (tagMatch q)).isSome :=
        fun q hq => htotal q (List.mem_cons_of_mem _ hq)
      rw [ih (btfStep ranked acc p) htotal' hdisj' (List.nodup_cons.mp hnd).2,
        hstep, List.length_cons]
      omega

/-- C10: when the partitioner runs with the ranking produced by `_rank_tags`
on the same (duplicate-free) coordinate group — as `main` always does — the
no-matching-tag branch is unreachable: every pair matches a ranked tag (at
least its own), every pair is assigned to some cluster, and the cluster
sizes sum to the group size, so no pair is silently dropped. -/
theorem C10_no_silent_drop (g : CoordGroup) (hnd : g.Nodup) :
    (∀ p ∈ g, ((rankTags g).find? (tagMatch p)).isSome) ∧
      (∀ p ∈ g, ∃ t cl,
        dictLookup (buildTagFamilies g (rankTags g)) t = some cl ∧ p ∈ cl) ∧
      clusterSizeSum (buildTagFamilies g (rankTags g)) = g.length := by
  have htotal : ∀ p ∈ g, ((rankTags g).find? (tagMatch p)).isSome := by
    intro p hp
    apply List.find?_isSome.mpr
    refine ⟨pairTag p, (mem_rankTags g (pairTag p)).mpr ⟨p, hp, rfl⟩, ?_⟩
    unfold tagMatch
    simp
  refine ⟨htotal, ?_, ?_⟩
  · intro p hp
    obtain ⟨bt, hbt⟩ := Option.isSome_iff_exists.mp (htotal p hp)
    obtain ⟨cl, hcl, hpcl⟩ :=
      (btf_fold_mem (rankTags g) g [] p bt).mpr (Or.inr ⟨hp, hbt⟩)
    exact ⟨bt, cl, hcl, hpcl⟩
  · unfold buildTagFamilies
    rw [btf_fold_sizes (rankTags g) g [] htotal
      (by intro t cl h; cases h) hnd]
    simp [clusterSizeSum]

/-- C10 witness: on the example group the clusters cover all four pairs. -/
theorem C10_witness :
    clusterSizeSum (buildTagFamilies exampleGroupC2 (rankTags exampleGroupC2)) =
      exampleGroupC2.length :=
  (C10_no_silent_drop exampleGroupC2 (by decide)).2.2

/-! ## C1: the no-reopen invariant of `_build_coordinate_families` -/

theorem famStep_ok_family_nodup {st : FamState} {a : AlignedSegment}
    {st' : FamState} {y : Option (CoordinateKey × CoordGroup)}
    (hwf : NodupKeys st.family_dict) (h : famStep st a = .ok st' y) :
    NodupKeys st'.family_dict := by
  unfold famStep at h
  split at h
  · cases h
    exact hwf
  · dsimp only at h
    split at h
    · cases h
    · split at h
      · split at h
        · cases h
          exact nodupKeys_erase _ _ (nodupKeys_insert _ _ _ hwf)
        · cases h
          exact nodupKeys_insert _ _ _ hwf
      · cases h

/-- After a yield of key `k`, the yielded key has been popped from
`family_dict` and its manifest entry is the empty set. -/
theorem famStep_yield_clean {st : FamState} {a : AlignedSegment}
    {st' : FamState} {k : CoordinateKey} {g : CoordGroup}
    (hwf : NodupKeys st.family_dict)
    (h : famStep st a = .ok st' (some (k, g))) :
    dictLookup st'.family_dict k = none ∧ dictLookup st'.manifest k = some [] := by
  unfold famStep at h
  split at h
  · cases h
  · dsimp only at h
    split at h
    · cases h
    · split at h
      · split at h
        · rename_i howed hempty
          cases h
          constructor
          · exact dictLookup_erase_self _ _ (nodupKeys_insert _ _ _ hwf)
          · simp only [hempty]
            exact dictLookup_insert_self _ _ _
        · cases h
      · cases h

/-- A step that completes normally preserves "key `k` is clean": popped from
`family_dict`, empty in the manifest — and it can neither yield `k` again
nor re-insert a pair under `k`. -/
theorem famStep_clean_preserved {st : FamState} {a : AlignedSegment}
    {st' : FamState} {y : Option (CoordinateKey × CoordGroup)}
    (k : CoordinateKey)
    (hfam : dictLookup st.family_dict k = none)
    (hman : dictLookup st.manifest k = some [])
    (h : famStep st a = .ok st' y) :
    dictLookup st'.family_dict k = none ∧ dictLookup st'.manifest k = some [] ∧
      ∀ g : CoordGroup, y ≠ some (k, g) := by
  unfold famStep at h
  split at h
  · cases h
    refine ⟨hfam, hman, ?_⟩
    intro g hg
    cases hg
  · dsimp only at h
    by_cases hk : (LightweightAlignment.ofSegment a).key = k
    · rw [hk] at h
      rw [hman] at h
      dsimp only at h
      split at h
      · rename_i hmem
        simp at hmem
      · cases h
    · split at h
      · cases h
      · split at h
        · split at h
          · cases h
            refine ⟨?_, ?_, ?_⟩
            · rw [dictLookup_erase_ne _ hk, dictLookup_insert_ne _ _ hk]
              exact hfam
            · rw [dictLookup_insert_ne _ _ hk]
              exact hman
            · intro g hg
              rw [Option.some.injEq] at hg
              exact hk (congrArg Prod.fst hg)
          · cases h
            refine ⟨?_, ?_, ?_⟩
            · rw [dictLookup_insert_ne _ _ hk]
              exact hfam
            · rw [dictLookup_insert_ne _ _ hk]
              exact hman
            · intro g hg
              cases hg
        · cases h

/-- Along any trace started from a clean state for `k`, every normally
completed step still has `k` popped from `family_dict` and never yields `k`. -/
theorem famTrace_clean (k : CoordinateKey) :
    ∀ (segs : List AlignedSegment) (st : FamState),
      NodupKeys st.family_dict →
      dictLookup st.family_dict k = none →
      dictLookup st.manifest k = some [] →
      ∀ o ∈ famTrace segs st, ∀ st2 y, o = .ok st2 y →
        dictLookup st2.family_dict k = none ∧ ∀ g : CoordGroup, y ≠ some (k, g) := by
  intro segs
  induction segs with
  | nil =>
      intro st _ _ _ o ho
      simp [famTrace] at ho
  | cons a rest ih =>
      intro st hwf hfam hman o ho st2 y hoeq
      rw [famTrace] at ho
      cases hstep : famStep st a with
      | err st1 =>
          rw [hstep] at ho
          simp only [List.mem_singleton] at ho
          rw [ho] at hoeq
          cases hoeq
      | ok st1 y1 =>
          rw [hstep] at ho
          rcases List.mem_cons.mp ho with ho | ho
          · rw [ho] at hoeq
            cases hoeq
            obtain ⟨ha, hb, hc⟩ := famStep_clean_preserved k hfam hman hstep
            exact ⟨ha, hc⟩
          · obtain ⟨ha, hb, _⟩ := famStep_clean_preserved k hfam hman hstep
            exact ih st1 (famStep_ok_family_nodup hwf hstep) ha hb o ho st2 y hoeq

/-- Does this step-outcome's state still hold key `k` in `family_dict`? -/
def familyHasKey (k : CoordinateKey) (st : FamState) : Bool :=
  (dictLookup st.family_dict k).isSome

/-- A later step re-opens a yielded key if its resulting state holds the key
in `family_dict` (a pair was inserted under it) or if it yields the key
again. -/
def okViolates (k : CoordinateKey) : StepOut → Bool
  | .ok st y =>
      familyHasKey k st ||
        (match y with
          | some (k', _) => decide (k' = k)
          | none => false)
  | .err _ => false

/-- Like `okViolates` but also inspecting the state at a `KeyError` (the
state the exception leaves behind). -/
def anyViolates (k : CoordinateKey) (o : StepOut) : Bool :=
  familyHasKey k o.state ||
    (match o with
      | .ok _ (some (k', _)) => decide (k' = k)
      | _ => false)

/-- The no-reopen check over normally completed steps: after each yield of a
key, no later step that completes normally holds that key in `family_dict`
or yields it again. -/
def noReopenOk : List StepOut → Bool
  | [] => true
  | .ok _ (some (k, _)) :: rest =>
      rest.all (fun o => !(okViolates k o)) && noReopenOk rest
  | _ :: rest => noReopenOk rest

/-- The literal claim's check: after each yield of a key, **no** later step —
including the state at a `KeyError` — holds that key in `family_dict` or
yields it again. -/
def noReopenStrict : List StepOut → Bool
  | [] => true
  | .ok _ (some (k, _)) :: rest =>
      rest.all (fun o => !(anyViolates k o)) && noReopenStrict rest
  | _ :: rest => noReopenStrict rest

theorem noReopenOk_trace :
    ∀ (segs : List AlignedSegment) (st : FamState),
      NodupKeys st.family_dict → noReopenOk (famTrace segs st) = true := by
  intro segs
  induction segs with
  | nil =>
      intro st _
      rfl
  | cons a rest ih =>
      intro st hwf
      rw [famTrace]
      cases hstep : famStep st a with
      | err st1 => rfl
      | ok st1 y1 =>
          have hwf1 : NodupKeys st1.family_dict :=
            famStep_ok_family_nodup hwf hstep
          cases y1 with
          | none =>
              show noReopenOk (.ok st1 none :: famTrace rest st1) = true
              rw [show noReopenOk (.ok st1 none :: famTrace rest st1)
                    = noReopenOk (famTrace rest st1) from rfl]
              exact ih st1 hwf1
          | some kg =>
              obtain ⟨k, g⟩ := kg
              show noReopenOk (.ok st1 (some (k, g)) :: famTrace rest st1) = true
              rw [show noReopenOk (.ok st1 (some (k, g)) :: famTrace rest st1)
                    = ((famTrace rest st1).all (fun o => !(okViolates k o)) &&
                        noReopenOk (famTrace rest st1)) from rfl]
              rw [Bool.and_eq_true]
              refine ⟨?_, ih st1 hwf1⟩
              rw [List.all_eq_true]
              intro o ho
              obtain ⟨hfam1, hman1⟩ := famStep_yield_clean hwf hstep
              cases o with
              | err stE => rfl
              | ok st2 y2 =>
                  obtain ⟨ha, hb⟩ :=
                    famTrace_clean k rest st1 hwf1 hfam1 hman1 (.ok st2 y2) ho
                      st2 y2 rfl
                  have hfk : familyHasKey k st2 = false := by
                    unfold familyHasKey
                    rw [ha]
                    rfl
                  cases y2 with
                  | none => simp [okViolates, hfk]
                  | some kg2 =>
                      obtain ⟨k2, g2⟩ := kg2
                      have hk2 : k2 ≠ k := fun hk => hb g2 (by rw [hk])
                      simp [okViolates, hfk, hk2]

/-- C1 amended: on **every** input sequence and starting manifest, each
coordinate key is yielded at most once and, once a group for a key has been
yielded, no later normally-completing step of the pass holds that key in
`family_dict` or yields a group for it again.  (The sole exception the
original claim misses: a later pair completion under an emitted key does
insert the pair into `family_dict`, but then immediately raises `KeyError`
from `manifest.remove`, killing the pass — see `C1_counterexample`.) -/
theorem C1_no_reopen_amended (segs : List AlignedSegment) (manifest : Manifest) :
    noReopenOk (famTrace segs (initState manifest)) = true :=
  noReopenOk_trace segs (initState manifest)
    (by simp [initState, NodupKeys, dictKeys])

/-- The input refuting the literal claim: the read name `c` occurs four times
at one coordinate. -/
def reopenSegs : List AlignedSegment :=
  [⟨"c", "1", 10, 20, "AAA"⟩, ⟨"c", "1", 20, 10, "CCC"⟩,
   ⟨"c", "1", 10, 20, "AAA"⟩, ⟨"c", "1", 20, 10, "CCC"⟩]

/-- C1 counterexample: on `reopenSegs` the group for key `("1",10,20)` is
yielded when the first `c`-pair completes; the second `c`-pair completion
then inserts a pair under that key again (before dying with `KeyError`), so
the claim "no later step of the pass ever inserts a pair under that key" is
false as stated. -/
theorem C1_counterexample :
    noReopenStrict
      (famTrace reopenSegs
        (initState (buildCoordinateReadNameManifest
          (reopenSegs.map LightweightAlignment.ofSegment)))) = false := by
  decide

/-! ## C9: the manifest only shrinks — but empty entries are never deleted -/

/-- Lookup-based membership of a read name in the manifest entry of a key. -/
def manifestContains (m : Manifest) (k : CoordinateKey) (n : String) : Bool :=
  match dictLookup m k with
  | some l => decide (n ∈ l)
  | none => false

theorem dictLookup_append_self_of_none {α β : Type} [DecidableEq α]
    {m : List (α × β)} {k : α} (v : β) (h : dictLookup m k = none) :
    dictLookup (m ++ [(k, v)]) k = some v := by
  induction m with
  | nil => simp [dictLookup]
  | cons e m ih =>
      obtain ⟨ek, ev⟩ := e
      by_cases hek : ek = k
      · subst hek
        rw [dictLookup_cons_self] at h
        cases h
      · simp only [dictLookup, if_neg hek] at h ⊢
        exact ih h

/-- A single loop iteration never adds a read name to (the lookup view of)
the manifest, whatever state it starts from — including the state a
`KeyError` leaves behind. -/
theorem famStep_manifest_shrinks (st : FamState) (a : AlignedSegment)
    (k : CoordinateKey) (n : String)
    (h : manifestContains (StepOut.state (famStep st a)).manifest k n = true) :
    manifestContains st.manifest k n = true := by
  unfold famStep at h
  split at h
  · exact h
  · dsimp only at h
    split at h
    · rename_i hnone
      by_cases hk : (LightweightAlignment.ofSegment a).key = k
      · subst hk
        unfold manifestContains at h
        rw [show StepOut.state (.err
            { family_dict := _, pairing_dict := _,
              manifest := st.manifest ++ [((LightweightAlignment.ofSegment a).key, [])] })
          = { family_dict := _, pairing_dict := _,
              manifest := st.manifest ++ [((LightweightAlignment.ofSegment a).key, [])] }
          from rfl] at h
        rw [dictLookup_append_self_of_none [] hnone] at h
        simp at h
      · unfold manifestContains at h ⊢
        rw [show StepOut.state (.err
            { family_dict := _, pairing_dict := _,
              manifest := st.manifest ++ [((LightweightAlignment.ofSegment a).key, [])] })
          = { family_dict := _, pairing_dict := _,
              manifest := st.manifest ++ [((LightweightAlignment.ofSegment a).key, [])] }
          from rfl] at h
        rw [dictLookup_append_ne _ _ hk] at h
        exact h
    · rename_i owed howed
      split at h
      · split at h
        · -- yield branch
          by_cases hk : (LightweightAlignment.ofSegment a).key = k
          · subst hk
            rename_i hempty
            unfold manifestContains at h
            dsimp only [StepOut.state] at h
            rw [hempty, dictLookup_insert_self] at h
            simp at h
          · unfold manifestContains at h ⊢
            dsimp only [StepOut.state] at h
            rw [dictLookup_insert_ne _ _ hk] at h
            exact h
        · -- no-yield branch
          by_cases hk : (LightweightAlignment.ofSegment a).key = k
          · subst hk
            rename_i hmem hne
            unfold manifestContains at h ⊢
            dsimp only [StepOut.state] at h
            rw [dictLookup_insert_self] at h
            rw [howed]
            simp only [decide_eq_true_eq] at h ⊢
            exact List.mem_of_mem_erase h
          · unfold manifestContains at h ⊢
            dsimp only [StepOut.state] at h
            rw [dictLookup_insert_ne _ _ hk] at h
            exact h
      · exact h

/-- A yield of key `k` leaves the manifest entry for `k` present and equal to
the empty set — it is not deleted. -/
theorem famStep_yield_manifest_empty {st : FamState} {a : AlignedSegment}
    {st' : FamState} {k : CoordinateKey} {g : CoordGroup}
    (h : famStep st a = .ok st' (some (k, g))) :
    dictLookup st'.manifest k = some [] := by
  unfold famStep at h
  split at h
  · cases h
  · dsimp only at h
    split at h
    · cases h
    · split at h
      · split at h
        · rename_i hempty
          cases h
          simp only [hempty]
          exact dictLookup_insert_self _ _ _
        · cases h
      · cases h

theorem famTrace_yield_manifest_empty :
    ∀ (segs : List AlignedSegment) (st : FamState),
      ∀ o ∈ famTrace segs st, ∀ (st2 : FamState) (k : CoordinateKey)
        (g : CoordGroup), o = .ok st2 (some (k, g)) →
          dictLookup st2.manifest k = some [] := by
  intro segs
  induction segs with
  | nil =>
      intro st o ho
      simp [famTrace] at ho
  | cons a rest ih =>
      intro st o ho st2 k g hoeq
      rw [famTrace] at ho
      cases hstep : famStep st a with
      | err st1 =>
          rw [hstep] at ho
          simp only [List.mem_singleton] at ho
          rw [ho] at hoeq
          cases hoeq
      | ok st1 y1 =>
          rw [hstep] at ho
          rcases List.mem_cons.mp ho with ho | ho
          · rw [ho] at hoeq
            cases hoeq
            exact famStep_yield_manifest_empty hstep
          · exact ih st1 o ho st2 k g hoeq

/-- C9 amended: during the second pass the manifest only shrinks (no read
name is ever added to any key's set, at any step, from any state), and the
moment a key's set of owed names becomes empty its group is yielded — but
the empty entry **remains** in the mapping; it is not deleted (see
`C9_counterexample`). -/
theorem C9_manifest_shrink_amended :
    (∀ (st : FamState) (a : AlignedSegment) (k : CoordinateKey) (n : String),
        manifestContains (StepOut.state (famStep st a)).manifest k n = true →
        manifestContains st.manifest k n = true) ∧
      (∀ (segs : List AlignedSegment) (st : FamState),
        ∀ o ∈ famTrace segs st, ∀ (st2 : FamState) (k : CoordinateKey)
          (g : CoordGroup), o = .ok st2 (some (k, g)) →
            dictLookup st2.manifest k = some []) :=
  ⟨famStep_manifest_shrinks, famTrace_yield_manifest_empty⟩

/-- A mid-pass state: read `a` awaits its mate; names `a`, `b` owed at the
key. -/
def shrinkWitnessState : FamState :=
  { family_dict := []
    pairing_dict := [("a", ⟨"a", "1", 10, 20, "AAA"⟩)]
    manifest := [(("1", 10, 20), ["a", "b"])] }

/-- C9 witness: completing the `a`-pair removes `a` from the manifest entry;
`b` was owed afterwards, hence owed before. -/
theorem C9_witness :
    manifestContains shrinkWitnessState.manifest ("1", 10, 20) "b" = true :=
  C9_manifest_shrink_amended.1 shrinkWitnessState ⟨"a", "1", 20, 10, "CCC"⟩
    ("1", 10, 20) "b" (by decide)

/-- The two-read input whose single pair completes its coordinate. -/
def onePairSegs : List AlignedSegment :=
  [⟨"a", "1", 10, 20, "AAA"⟩, ⟨"a", "1", 20, 10, "CCC"⟩]

/-- C9 counterexample: the claim says the manifest entry is deleted from the
mapping the instant it becomes empty; in fact the pass ends with the entry
`("1",10,20) ↦ ∅` still present.  The claim, instantiated on this run (names
only shrink ∧ an entry seen empty never occurs), is false. -/
theorem C9_counterexample :
    ¬ ((∀ o ∈ famTrace onePairSegs
          (initState (buildCoordinateReadNameManifest
            (onePairSegs.map LightweightAlignment.ofSegment))),
        ∀ (k : CoordinateKey) (n : String),
          manifestContains (StepOut.state o).manifest k n = true →
          manifestContains
            (buildCoordinateReadNameManifest
              (onePairSegs.map LightweightAlignment.ofSegment)) k n = true) ∧
      (∀ o ∈ famTrace onePairSegs
          (initState (buildCoordinateReadNameManifest
            (onePairSegs.map LightweightAlignment.ofSegment))),
        ∀ (k : CoordinateKey) (l : List String),
          dictLookup (StepOut.state o).manifest k = some l → l ≠ [])) := by
  rintro ⟨-, hdel⟩
  refine hdel
    ((famTrace onePairSegs
      (initState (buildCoordinateReadNameManifest
        (onePairSegs.map LightweightAlignment.ofSegment)))).getD 1
      (StepOut.err (initState [])))
    (by decide) ("1", 10, 20) [] (by decide) rfl

/-! ## C8: orphan reads — no error is raised, but the key never completes -/

/-- Adding a lightweight alignment to the manifest under construction
preserves every name already recorded. -/
theorem buildManifest_step_mono (acc : Manifest) (lwa : LightweightAlignment)
    (k : CoordinateKey) (n : String)
    (h : ∃ l, dictLookup acc k = some l ∧ n ∈ l) :
    ∃ l, dictLookup
        (dictInsert acc lwa.key (setAdd ((dictLookup acc lwa.key).getD []) lwa.name))
        k = some l ∧ n ∈ l := by
  obtain ⟨l, hl, hn⟩ := h
  by_cases hk : lwa.key = k
  · subst hk
    refine ⟨setAdd ((dictLookup acc lwa.key).getD []) lwa.name,
      dictLookup_insert_self _ _ _, ?_⟩
    rw [hl]
    exact (mem_setAdd _ _ _).mpr (Or.inl hn)
  · exact ⟨l, by rw [dictLookup_insert_ne _ _ hk]; exact hl, hn⟩

/-- Every read registered in pass 1 is present in the built manifest under
its own key. -/
theorem buildManifest_mem :
    ∀ (lws : List LightweightAlignment) (acc : Manifest)
      (lw : LightweightAlignment),
      (lw ∈ lws ∨ ∃ l, dictLookup acc lw.key = some l ∧ lw.name ∈ l) →
      ∃ l, dictLookup
          (lws.foldl (fun m lwa =>
            dictInsert m lwa.key (setAdd ((dictLookup m lwa.key).getD []) lwa.name))
            acc) lw.key = some l ∧ lw.name ∈ l := by
  intro lws
  induction lws with
  | nil =>
      intro acc lw h
      rcases h with h | h
      · cases h
      · exact h
  | cons x lws ih =>
      intro acc lw h
      rw [List.foldl_cons]
      rcases h with h | h
      · rcases List.mem_cons.mp h with rfl | h
        · refine ih _ lw (Or.inr ?_)
          refine ⟨setAdd ((dictLookup acc lw.key).getD []) lw.name,
            dictLookup_insert_self _ _ _, ?_⟩
          exact (mem_setAdd _ _ _).mpr (Or.inr rfl)
        · exact ih _ lw (Or.inl h)
      · exact ih _ lw (Or.inr (buildManifest_step_mono acc x lw.key lw.name h))

/-- A step on a read not named `n` keeps `n` inside the manifest entry of `K`
and cannot yield `K` while `n` is still owed there. -/
theorem famStep_orphan_man {st : FamState} {a : AlignedSegment}
    {st' : FamState} {y : Option (CoordinateKey × CoordGroup)}
    {n : String} {K : CoordinateKey}
    (hname : a.query_name ≠ n)
    (hman : ∃ l, dictLookup st.manifest K = some l ∧ n ∈ l)
    (h : famStep st a = .ok st' y) :
    (∃ l, dictLookup st'.manifest K = some l ∧ n ∈ l) ∧
      ∀ g : CoordGroup, y ≠ some (K, g) := by
  obtain ⟨l, hl, hn⟩ := hman
  unfold famStep at h
  split at h
  · cases h
    exact ⟨⟨l, hl, hn⟩, fun g hg => by cases hg⟩
  · dsimp only at h
    by_cases hk : (LightweightAlignment.ofSegment a).key = K
    · rw [hk, hl] at h
      dsimp only at h
      split at h
      · rename_i hmem
        have hnl : n ∈ l.erase a.query_name :=
          (List.mem_erase_of_ne (Ne.symm hname)).mpr hn
        split at h
        · rename_i hempty
          rw [hempty] at hnl
          cases hnl
        · cases h
          refine ⟨⟨l.erase a.query_name, ?_, hnl⟩, fun g hg => by cases hg⟩
          exact dictLookup_insert_self _ _ _
      · cases h
    · split at h
      · cases h
      · split at h
        · split at h
          · cases h
            refine ⟨⟨l, ?_, hn⟩, ?_⟩
            · rw [dictLookup_insert_ne _ _ hk]
              exact hl
            · intro g hg
              rw [Option.some.injEq] at hg
              exact hk (congrArg Prod.fst hg)
          · cases h
            refine ⟨⟨l, ?_, hn⟩, fun g hg => by cases hg⟩
            rw [dictLookup_insert_ne _ _ hk]
            exact hl
        · cases h

/-- A step on a read not named `n` never puts `n` into the open-pairing map. -/
theorem famStep_orphan_pair {st : FamState} {a : AlignedSegment}
    {st' : FamState} {y : Option (CoordinateKey × CoordGroup)} {n : String}
    (hname : a.query_name ≠ n)
    (hpair : dictLookup st.pairing_dict n = none)
    (h : famStep st a = .ok st' y) :
    dictLookup st'.pairing_dict n = none := by
  unfold famStep at h
  split at h
  · cases h
    dsimp only
    rw [dictLookup_insert_ne _ _ hname]
    exact hpair
  · dsimp only at h
    split at h
    · cases h
    · split at h
      · split at h
        · cases h
          dsimp only
          rw [dictLookup_erase_ne _ hname]
          exact hpair
        · cases h
          dsimp only
          rw [dictLookup_erase_ne _ hname]
          exact hpair
      · cases h

/-- If a read name is wholly absent from the remaining input and still owed
at key `K`, no group for `K` is ever yielded. -/
theorem famTrace_orphan_zero :
    ∀ (segs : List AlignedSegment) (st : FamState) (n : String)
      (K : CoordinateKey),
      (∀ s ∈ segs, s.query_name ≠ n) →
      (∃ l, dictLookup st.manifest K = some l ∧ n ∈ l) →
      ∀ kg ∈ traceYields (famTrace segs st), kg.1 ≠ K := by
  intro segs
  induction segs with
  | nil =>
      intro st n K _ _ kg hkg
      simp [famTrace, traceYields] at hkg
  | cons a rest ih =>
      intro st n K hnames hman kg hkg
      rw [famTrace] at hkg
      cases hstep : famStep st a with
      | err st1 =>
          rw [hstep] at hkg
          simp [traceYields] at hkg
      | ok st1 y1 =>
          rw [hstep] at hkg
          obtain ⟨hman1, hy⟩ :=
            famStep_orphan_man (hnames a (List.mem_cons_self _ _)) hman hstep
          cases y1 with
          | none =>
              rw [show traceYields (.ok st1 none :: famTrace rest st1)
                  = traceYields (famTrace rest st1) from rfl] at hkg
              exact ih st1 n K (fun s hs => hnames s (List.mem_cons_of_mem _ hs))
                hman1 kg hkg
          | some kg0 =>
              rw [show traceYields (.ok st1 (some kg0) :: famTrace rest st1)
                  = kg0 :: traceYields (famTrace rest st1) from rfl] at hkg
              rcases List.mem_cons.mp hkg with rfl | hkg
              · intro hK
                obtain ⟨k0, g0⟩ := kg
                exact hy g0 (by rw [show k0 = K from hK])
              · exact ih st1 n K (fun s hs => hnames s (List.mem_cons_of_mem _ hs))
                  hman1 kg hkg

/-- Storing a first-seen read: the loop body when the name is not yet in the
open-pairing map. -/
theorem famStep_store {st : FamState} {a : AlignedSegment}
    (h : dictLookup st.pairing_dict a.query_name = none) :
    famStep st a = .ok
      { st with pairing_dict := dictInsert st.pairing_dict a.query_name a }
      none := by
  unfold famStep
  rw [h]

/-- If a read name occurs exactly once in the remaining input, is not in the
open-pairing map, and is still owed at key `K`, no group for `K` is ever
yielded. -/
theorem famTrace_orphan_once :
    ∀ (pre : List AlignedSegment) (s : AlignedSegment)
      (post : List AlignedSegment) (st : FamState) (n : String)
      (K : CoordinateKey),
      s.query_name = n →
      (∀ x ∈ pre, x.query_name ≠ n) →
      (∀ x ∈ post, x.query_name ≠ n) →
      dictLookup st.pairing_dict n = none →
      (∃ l, dictLookup st.manifest K = some l ∧ n ∈ l) →
      ∀ kg ∈ traceYields (famTrace (pre ++ s :: post) st), kg.1 ≠ K := by
  intro pre
  induction pre with
  | nil =>
      intro s post st n K hname _ hpost hpair hman kg hkg
      rw [List.nil_append, famTrace,
        famStep_store (by rw [hname]; exact hpair)] at hkg
      rw [show traceYields (.ok _ none :: famTrace post _)
          = traceYields (famTrace post _) from rfl] at hkg
      exact famTrace_orphan_zero post
        { st with pairing_dict := dictInsert st.pairing_dict s.query_name s }
        n K hpost hman kg hkg
  | cons x pre ih =>
      intro s post st n K hname hpre hpost hpair hman kg hkg
      rw [List.cons_append, famTrace] at hkg
      cases hstep : famStep st x with
      | err st1 =>
          rw [hstep] at hkg
          simp [traceYields] at hkg
      | ok st1 y1 =>
          rw [hstep] at hkg
          have hxn : x.query_name ≠ n := hpre x (List.mem_cons_self _ _)
          obtain ⟨hman1, hy⟩ := famStep_orphan_man hxn hman hstep
          have hpair1 := famStep_orphan_pair hxn hpair hstep
          cases y1 with
          | none =>
              rw [show traceYields (.ok st1 none :: famTrace (pre ++ s :: post) st1)
                  = traceYields (famTrace (pre ++ s :: post) st1) from rfl] at hkg
              exact ih s post st1 n K hname
                (fun z hz => hpre z (List.mem_cons_of_mem _ hz)) hpost hpair1
                hman1 kg hkg
          | some kg0 =>
              rw [show traceYields
                    (.ok st1 (some kg0) :: famTrace (pre ++ s :: post) st1)
                  = kg0 :: traceYields (famTrace (pre ++ s :: post) st1)
                  from rfl] at hkg
              rcases List.mem_cons.mp hkg with rfl | hkg
              · intro hK
                obtain ⟨k0, g0⟩ := kg
                exact hy g0 (by rw [show k0 = K from hK])
              · exact ih s post st1 n K hname
                  (fun z hz => hpre z (List.mem_cons_of_mem _ hz)) hpost hpair1
                  hman1 kg hkg

/-- C8 amended: for an input in which read name `n` occurs exactly once (an
orphan), the pass never emits a coordinate group for the orphan's key: the
orphan's name, registered in the manifest by pass 1, is never removed, so
the key never completes.  No error is raised for the orphan (the code
defines no `UnmatchedMateError`; see `C8_counterexample`). -/
theorem C8_no_group_for_orphan_amended
    (segs : List AlignedSegment) (n : String)
    (pre post : List AlignedSegment) (s : AlignedSegment)
    (hsplit : segs = pre ++ s :: post) (hname : s.query_name = n)
    (hpre : ∀ x ∈ pre, x.query_name ≠ n)
    (hpost : ∀ x ∈ post, x.query_name ≠ n) :
    ∀ kg ∈ traceYields (famTrace segs
        (initState (buildCoordinateReadNameManifest
          (segs.map LightweightAlignment.ofSegment)))),
      kg.1 ≠ (LightweightAlignment.ofSegment s).key := by
  subst hsplit
  apply famTrace_orphan_once pre s post _ n _ hname hpre hpost
  · rfl
  · have hmem : LightweightAlignment.ofSegment s ∈
        (pre ++ s :: post).map LightweightAlignment.ofSegment :=
      List.mem_map_of_mem _ (by simp)
    have := buildManifest_mem
      ((pre ++ s :: post).map LightweightAlignment.ofSegment) []
      (LightweightAlignment.ofSegment s) (Or.inl hmem)
    rw [show (LightweightAlignment.ofSegment s).name = n from hname] at this
    exact this

/-- An ill-formed input: one complete pair `a` plus an orphan read `o` whose
name occurs only once. -/
def orphanSegs : List AlignedSegment :=
  [⟨"a", "1", 10, 20, "AAA"⟩, ⟨"a", "1", 20, 10, "CCC"⟩,
   ⟨"o", "1", 50, 70, "GGG"⟩]

/-- Does the pass abort with an exception?  (The only exception the code can
raise is the `KeyError` from `set.remove`; it defines no
`UnmatchedMateError`.) -/
def traceAborts (tr : List StepOut) : Bool :=
  tr.any fun o =>
    match o with
    | .err _ => true
    | _ => false

/-- C8 counterexample: on the orphan input the pass raises nothing at all —
it completes normally, silently leaving the orphan in the open-pairing map —
so the claim "the run raises an UnmatchedMateError" is false (the second
half, that no group for the orphan's key is emitted, does hold; see
`C8_no_group_for_orphan_amended`). -/
theorem C8_counterexample :
    ¬ (traceAborts (famTrace orphanSegs
          (initState (buildCoordinateReadNameManifest
            (orphanSegs.map LightweightAlignment.ofSegment)))) = true ∧
        ∀ kg ∈ traceYields (famTrace orphanSegs
          (initState (buildCoordinateReadNameManifest
            (orphanSegs.map LightweightAlignment.ofSegment)))),
          kg.1 ≠ ("1", 50, 70)) := by
  rintro ⟨h1, -⟩
  exact absurd h1 (by decide)

/-- C8 witness: the one group the orphan run does yield is for the `a`-pair's
coordinate, not for the orphan's key. -/
theorem C8_witness :
    ((traceYields (famTrace orphanSegs
        (initState (buildCoordinateReadNameManifest
          (orphanSegs.map LightweightAlignment.ofSegment))))).getD 0
      (("", 0, 0), [])).1 ≠ ("1", 50, 70) :=
  C8_no_group_for_orphan_amended orphanSegs "o"
    [⟨"a", "1", 10, 20, "AAA"⟩, ⟨"a", "1", 20, 10, "CCC"⟩] []
    ⟨"o", "1", 50, 70, "GGG"⟩ rfl rfl (by decide) (by decide) _ (by decide)

/-! ## C3: conservation of reads on well-formed input -/

/-- Number of occurrences of read name `n` in a list of segments. -/
def occN (n : String) (l : List AlignedSegment) : Nat :=
  l.countP fun s => decide (s.query_name = n)

/-- Well-formed input: every read name occurs exactly twice, and two reads
with the same name compute the same coordinate key. -/
def WellFormed (segs : List AlignedSegment) : Prop :=
  (∀ s ∈ segs, occN s.query_name segs = 2) ∧
    (∀ s ∈ segs, ∀ t ∈ segs, s.query_name = t.query_name →
      (LightweightAlignment.ofSegment s).key = (LightweightAlignment.ofSegment t).key)

instance (segs : List AlignedSegment) : Decidable (WellFormed segs) := by
  unfold WellFormed
  infer_instance

/-- The two reads held by the pairs of a group. -/
def groupReads (g : CoordGroup) : List AlignedSegment :=
  g.flatMap fun p => [p.left_alignment, p.right_alignment]

/-- Reads waiting in the open-pairing map. -/
def pairingReads (st : FamState) : List AlignedSegment :=
  st.pairing_dict.map Prod.snd

/-- Reads held by in-progress coordinate groups. -/
def familyReads (st : FamState) : List AlignedSegment :=
  st.family_dict.flatMap fun e => groupReads e.2

/-- Reads contained in a list of yielded groups. -/
def yieldReads (ys : List (CoordinateKey × CoordGroup)) : List AlignedSegment :=
  ys.flatMap fun kg => groupReads kg.2

/-- The generator state after consuming the whole input (or at the moment a
`KeyError` is raised). -/
def famFinal : List AlignedSegment → FamState → FamState
  | [], st => st
  | aseg :: rest, st =>
      match famStep st aseg with
      | .ok st' _ => famFinal rest st'
      | .err st' => st'

theorem entries_insert_perm {α β : Type} [DecidableEq α]
    (m : List (α × β)) (k : α) (v : β) :
    List.Perm (dictInsert m k v) ((k, v) :: dictErase m k) := by
  induction m with
  | nil => simp [dictInsert, dictErase]
  | cons e m ih =>
      obtain ⟨ek, ev⟩ := e
      by_cases hek : ek = k
      · subst hek
        rw [dictInsert_cons_self, dictErase_cons_self]
      · simp only [dictInsert, if_neg hek, dictErase]
        exact (ih.cons _).trans (List.Perm.swap _ _ _)

theorem entries_of_lookup_some_perm {α β : Type} [DecidableEq α]
    {m : List (α × β)} {k : α} {v : β} (h : dictLookup m k = some v) :
    List.Perm m ((k, v) :: dictErase m k) := by
  induction m with
  | nil => cases h
  | cons e m ih =>
      obtain ⟨ek, ev⟩ := e
      by_cases hek : ek = k
      · subst hek
        rw [dictLookup_cons_self] at h
        obtain rfl : ev = v := by simpa using h
        rw [dictErase_cons_self]
      · simp only [dictLookup, if_neg hek] at h
        simp only [dictErase, if_neg hek]
        exact ((ih h).cons _).trans (List.Perm.swap _ _ _)

theorem dictErase_of_lookup_none {α β : Type} [DecidableEq α]
    {m : List (α × β)} {k : α} (h : dictLookup m k = none) :
    dictErase m k = m := by
  induction m with
  | nil => rfl
  | cons e m ih =>
      obtain ⟨ek, ev⟩ := e
      by_cases hek : ek = k
      · subst hek
        rw [dictLookup_cons_self] at h
        cases h
      · simp only [dictLookup, if_neg hek] at h
        simp only [dictErase, if_neg hek, ih h]

theorem dictInsert_of_lookup_none {α β : Type} [DecidableEq α]
    {m : List (α × β)} {k : α} (v : β) (h : dictLookup m k = none) :
    dictInsert m k v = m ++ [(k, v)] := by
  induction m with
  | nil => rfl
  | cons e m ih =>
      obtain ⟨ek, ev⟩ := e
      by_cases hek : ek = k
      · subst hek
        rw [dictLookup_cons_self] at h
        cases h
      · simp only [dictLookup, if_neg hek] at h
        simp only [dictInsert, if_neg hek, ih h, List.cons_append]

/-- Every set in the manifest built by pass 1 is duplicate-free. -/
theorem buildManifest_nodup :
    ∀ (lws : List LightweightAlignment) (acc : Manifest),
      (∀ k l, dictLookup acc k = some l → l.Nodup) →
      ∀ k l, dictLookup
          (lws.foldl (fun m lwa =>
            dictInsert m lwa.key (setAdd ((dictLookup m lwa.key).getD []) lwa.name))
            acc) k = some l → l.Nodup := by
  intro lws
  induction lws with
  | nil =>
      intro acc hacc k l h
      exact hacc k l h
  | cons x lws ih =>
      intro acc hacc k l h
      rw [List.foldl_cons] at h
      refine ih _ ?_ k l h
      intro k' l' h'
      by_cases hk : x.key = k'
      · subst hk
        rw [dictLookup_insert_self] at h'
        obtain rfl : setAdd ((dictLookup acc x.key).getD []) x.name = l' := by
          simpa using h'
        unfold setAdd
        split
        · cases hl : dictLookup acc x.key with
          | none => simp
          | some l0 => exact hacc _ _ hl
        · rename_i hmem
          cases hl : dictLookup acc x.key with
          | none => simp
          | some l0 =>
              rw [hl] at hmem
              simp only [Option.getD_some] at hmem ⊢
              exact List.Nodup.append (hacc _ _ hl) (List.nodup_singleton _)
                (by simpa using hmem)
      · rw [dictLookup_insert_ne _ _ hk] at h'
        exact hacc k' l' h'

/-- Every name recorded in the built manifest comes from some input read with
that key and name. -/
theorem buildManifest_names :
    ∀ (lws : List LightweightAlignment) (acc : Manifest)
      (k : CoordinateKey) (l : List String) (n : String),
      dictLookup
          (lws.foldl (fun m lwa =>
            dictInsert m lwa.key (setAdd ((dictLookup m lwa.key).getD []) lwa.name))
            acc) k = some l → n ∈ l →
        (∃ l0, dictLookup acc k = some l0 ∧ n ∈ l0) ∨
          ∃ lw ∈ lws, lw.key = k ∧ lw.name = n := by
  intro lws
  induction lws with
  | nil =>
      intro acc k l n h hn
      exact Or.inl ⟨l, h, hn⟩
  | cons x lws ih =>
      intro acc k l n h hn
      rw [List.foldl_cons] at h
      rcases ih _ k l n h hn with ⟨l0, hl0, hnl0⟩ | ⟨lw, hlw, hk, hname⟩
      · by_cases hk : x.key = k
        · subst hk
          rw [dictLookup_insert_self] at hl0
          obtain rfl : setAdd ((dictLookup acc x.key).getD []) x.name = l0 := by
            simpa using hl0
          rcases (mem_setAdd _ _ _).mp hnl0 with hnl | rfl
          · cases hl : dictLookup acc x.key with
            | none =>
                rw [hl] at hnl
                simp at hnl
            | some l1 =>
                rw [hl] at hnl
                simp only [Option.getD_some] at hnl
                exact Or.inl ⟨l1, rfl, hnl⟩
          · exact Or.inr ⟨x, List.mem_cons_self _ _, rfl, rfl⟩
        · rw [dictLookup_insert_ne _ _ hk] at hl0
          exact Or.inl ⟨l0, hl0, hnl0⟩
      · exact Or.inr ⟨lw, List.mem_cons_of_mem _ hlw, hk, hname⟩

theorem occN_append (n : String) (l1 l2 : List AlignedSegment) :
    occN n (l1 ++ l2) = occN n l1 + occN n l2 :=
  List.countP_append _ _ _

theorem occN_snoc (n : String) (l : List AlignedSegment) (a : AlignedSegment) :
    occN n (l ++ [a]) = occN n l + if a.query_name = n then 1 else 0 := by
  rw [occN_append]
  congr 1
  unfold occN
  rw [List.countP_cons]
  simp [List.countP_nil]

theorem occN_cons_self (a : AlignedSegment) (l : List AlignedSegment) :
    0 < occN a.query_name (a :: l) := by
  unfold occN
  rw [List.countP_cons]
  simp

/-- The full invariant carried through the second pass: `done` is the prefix
already consumed out of `segs`. -/
structure FamInv (segs done : List AlignedSegment) (st : FamState) : Prop where
  ndP : NodupKeys st.pairing_dict
  ndF : NodupKeys st.family_dict
  pairSome : ∀ n : String, (dictLookup st.pairing_dict n).isSome ↔ occN n done = 1
  pairVal : ∀ (n : String) (s : AlignedSegment),
    dictLookup st.pairing_dict n = some s → s ∈ done ∧ s.query_name = n
  man : ∀ k : CoordinateKey, dictLookup st.manifest k =
    (dictLookup (buildCoordinateReadNameManifest
        (segs.map LightweightAlignment.ofSegment)) k).map
      (fun l0 => l0.filter fun n => !decide (occN n done = 2))
  famOcc : ∀ (k : CoordinateKey) (g : CoordGroup),
    dictLookup st.family_dict k = some g → ∀ p ∈ g,
      occN p.left_alignment.query_name done = 2
  famMan : ∀ (k : CoordinateKey) (g : CoordGroup),
    dictLookup st.family_dict k = some g →
      ∃ l, dictLookup st.manifest k = some l ∧ l ≠ []

theorem famInv_init (segs : List AlignedSegment) :
    FamInv segs []
      (initState (buildCoordinateReadNameManifest
        (segs.map LightweightAlignment.ofSegment))) := by
  refine ⟨?_, ?_, ?_, ?_, ?_, ?_, ?_⟩
  · simp [initState, NodupKeys, dictKeys]
  · simp [initState, NodupKeys, dictKeys]
  · intro n
    simp [initState, dictLookup, occN]
  · intro n s h
    simp [initState, dictLookup] at h
  · intro k
    show dictLookup (buildCoordinateReadNameManifest _) k = _
    cases h : dictLookup (buildCoordinateReadNameManifest
        (segs.map LightweightAlignment.ofSegment)) k with
    | none => rfl
    | some l0 =>
        show some l0 = some (l0.filter _)
        congr 1
        symm
        apply List.filter_eq_self.mpr
        intro n _
        simp [occN]
  · intro k g h
    simp [initState, dictLookup] at h
  · intro k g h
    simp [initState, dictLookup] at h

/-- The store branch of the loop body, with its effect on the invariant and
the read multisets. -/
theorem famC3_step_store
    (segs done rest : List AlignedSegment) (a : AlignedSegment) (st : FamState)
    (hsplit : segs = done ++ a :: rest)
    (hwf : WellFormed segs)
    (hinv : FamInv segs done st)
    (hpd : dictLookup st.pairing_dict a.query_name = none) :
    ∃ st' : FamState,
      famStep st a = .ok st' none ∧
      FamInv segs (done ++ [a]) st' ∧
      pairingReads st' = pairingReads st ++ [a] ∧
      familyReads st' = familyReads st := by
  have hocc0 : occN a.query_name done = 0 := by
    have h1 : ¬ (dictLookup st.pairing_dict a.query_name).isSome := by
      rw [hpd]
      simp
    have h2 : occN a.query_name done ≠ 1 := fun h =>
      h1 ((hinv.pairSome _).mpr h)
    have h3 : occN a.query_name segs = 2 := hwf.1 a (by simp [hsplit])
    have h4 : occN a.query_name segs =
        occN a.query_name done + occN a.query_name (a :: rest) := by
      rw [hsplit, occN_append]
    have h5 : 0 < occN a.query_name (a :: rest) := occN_cons_self a rest
    omega
  refine ⟨{ st with pairing_dict := dictInsert st.pairing_dict a.query_name a },
    famStep_store hpd, ?_, ?_, rfl⟩
  · refine ⟨nodupKeys_insert _ _ _ hinv.ndP, hinv.ndF, ?_, ?_, ?_, ?_, ?_⟩
    · intro n
      dsimp only
      by_cases hn : a.query_name = n
      · subst hn
        rw [dictLookup_insert_self, occN_snoc, hocc0, if_pos rfl]
        simp
      · rw [dictLookup_insert_ne _ _ hn, occN_snoc, if_neg hn]
        simpa using hinv.pairSome n
    · intro n s h
      dsimp only at h
      by_cases hn : a.query_name = n
      · subst hn
        rw [dictLookup_insert_self] at h
        obtain rfl : a = s := by simpa using h
        exact ⟨by simp, rfl⟩
      · rw [dictLookup_insert_ne _ _ hn] at h
        obtain ⟨hs1, hs2⟩ := hinv.pairVal n s h
        exact ⟨List.mem_append_left _ hs1, hs2⟩
    · intro k
      dsimp only
      rw [hinv.man k]
      cases h : dictLookup (buildCoordinateReadNameManifest
          (segs.map LightweightAlignment.ofSegment)) k with
      | none => rfl
      | some l0 =>
          simp only [Option.map_some']
          congr 1
          apply List.filter_congr
          intro n _
          by_cases hn : a.query_name = n
          · rw [occN_snoc, if_pos hn, ← hn, hocc0]
            simp
          · rw [occN_snoc, if_neg hn]
            simp
    · intro k g h p hp
      dsimp only at h
      have h2 := hinv.famOcc k g h p hp
      have hne : a.query_name ≠ p.left_alignment.query_name := by
        intro he
        rw [he] at hocc0
        rw [hocc0] at h2
        cases h2
      rw [occN_snoc, if_neg hne, h2]
    · intro k g h
      dsimp only at h
      exact hinv.famMan k g h
  · show (dictInsert st.pairing_dict a.query_name a).map Prod.snd = _
    rw [dictInsert_of_lookup_none _ hpd, List.map_append]
    rfl

/-- Evaluating the loop body on a mate-completing read whose manifest removal
succeeds and empties the set: the group is yielded. -/
theorem famStep_pair_eval_yield {st : FamState} {a stored : AlignedSegment}
    {owed : List String}
    (hpd : dictLookup st.pairing_dict a.query_name = some stored)
    (howed : dictLookup st.manifest (LightweightAlignment.ofSegment a).key = some owed)
    (hmem : a.query_name ∈ owed)
    (hempty : owed.erase a.query_name = []) :
    famStep st a = .ok
      { family_dict := dictErase
          (dictInsert st.family_dict (LightweightAlignment.ofSegment a).key
            (setAdd ((dictLookup st.family_dict
              (LightweightAlignment.ofSegment a).key).getD []) ⟨stored, a⟩))
          (LightweightAlignment.ofSegment a).key
        pairing_dict := dictErase st.pairing_dict a.query_name
        manifest := dictInsert st.manifest (LightweightAlignment.ofSegment a).key
          (owed.erase a.query_name) }
      (some ((LightweightAlignment.ofSegment a).key,
        setAdd ((dictLookup st.family_dict
          (LightweightAlignment.ofSegment a).key).getD []) ⟨stored, a⟩)) := by
  unfold famStep
  rw [hpd]
  dsimp only
  rw [howed]
  dsimp only
  rw [if_pos hmem, if_pos hempty, dictLookup_insert_self]
  rw [Option.getD_some]

/-- Evaluating the loop body on a mate-completing read whose manifest removal
succeeds but leaves the set nonempty: no yield. -/
theorem famStep_pair_eval_noyield {st : FamState} {a stored : AlignedSegment}
    {owed : List String}
    (hpd : dictLookup st.pairing_dict a.query_name = some stored)
    (howed : dictLookup st.manifest (LightweightAlignment.ofSegment a).key = some owed)
    (hmem : a.query_name ∈ owed)
    (hne : owed.erase a.query_name ≠ []) :
    famStep st a = .ok
      { family_dict := dictInsert st.family_dict
          (LightweightAlignment.ofSegment a).key
          (setAdd ((dictLookup st.family_dict
            (LightweightAlignment.ofSegment a).key).getD []) ⟨stored, a⟩)
        pairing_dict := dictErase st.pairing_dict a.query_name
        manifest := dictInsert st.manifest (LightweightAlignment.ofSegment a).key
          (owed.erase a.query_name) }
      none := by
  unfold famStep
  rw [hpd]
  dsimp only
  rw [howed]
  dsimp only
  rw [if_pos hmem, if_neg hne]

theorem famReads_insert (m : List (CoordinateKey × CoordGroup))
    (k : CoordinateKey) (w : CoordGroup) :
    (((dictInsert m k w).flatMap fun e => groupReads e.2 : List AlignedSegment) :
        Multiset AlignedSegment) =
      ↑(groupReads w) + ↑((dictErase m k).flatMap fun e => groupReads e.2) := by
  have h := (entries_insert_perm m k w).flatMap_right fun e => groupReads e.2
  rw [List.flatMap_cons] at h
  rw [Multiset.coe_eq_coe.mpr h, ← Multiset.coe_add]

theorem famReads_of_lookup_some {m : List (CoordinateKey × CoordGroup)}
    {k : CoordinateKey} {g : CoordGroup} (h : dictLookup m k = some g) :
    ((m.flatMap fun e => groupReads e.2 : List AlignedSegment) :
        Multiset AlignedSegment) =
      ↑(groupReads g) + ↑((dictErase m k).flatMap fun e => groupReads e.2) := by
  have h2 := (entries_of_lookup_some_perm h).flatMap_right fun e => groupReads e.2
  rw [List.flatMap_cons] at h2
  rw [Multiset.coe_eq_coe.mpr h2, ← Multiset.coe_add]

theorem pairingReads_pop {st : FamState} {n : String} {stored : AlignedSegment}
    (hpd : dictLookup st.pairing_dict n = some stored) :
    (pairingReads st : Multiset AlignedSegment) =
      stored ::ₘ ↑((dictErase st.pairing_dict n).map Prod.snd) := by
  have h := (entries_of_lookup_some_perm hpd).map Prod.snd
  rw [List.map_cons] at h
  rw [show (pairingReads st : Multiset AlignedSegment)
      = ↑(st.pairing_dict.map Prod.snd) from rfl]
  rw [Multiset.coe_eq_coe.mpr h, ← Multiset.cons_coe]

theorem groupReads_setAdd {g : CoordGroup} {p : PairedAlignment} (h : p ∉ g) :
    groupReads (setAdd g p) =
      groupReads g ++ [p.left_alignment, p.right_alignment] := by
  unfold setAdd
  rw [if_neg h]
  unfold groupReads
  rw [List.flatMap_append]
  rfl

theorem dictErase_insert {α β : Type} [DecidableEq α]
    (m : List (α × β)) (k : α) (v : β) :
    dictErase (dictInsert m k v) k = dictErase m k := by
  induction m with
  | nil => simp [dictInsert, dictErase]
  | cons e m ih =>
      obtain ⟨ek, ev⟩ := e
      by_cases hek : ek = k
      · subst hek
        rw [dictInsert_cons_self, dictErase_cons_self, dictErase_cons_self]
      · simp only [dictInsert, if_neg hek, dictErase, ih]

/-- Net effect of one mate-completion on the read multisets: popping `stored`
from the pairing map and adding the pair `⟨stored, a⟩` to its coordinate
group moves exactly `stored` and adds exactly `a`. -/
theorem famC3_reads_balance (st : FamState) (a stored : AlignedSegment)
    (hpd : dictLookup st.pairing_dict a.query_name = some stored)
    (hpg0 : (⟨stored, a⟩ : PairedAlignment) ∉
      (dictLookup st.family_dict (LightweightAlignment.ofSegment a).key).getD []) :
    (((dictErase st.pairing_dict a.query_name).map Prod.snd :
        List AlignedSegment) : Multiset AlignedSegment) +
        ↑((dictErase st.family_dict
          (LightweightAlignment.ofSegment a).key).flatMap fun e => groupReads e.2) +
        ↑(groupReads (setAdd ((dictLookup st.family_dict
          (LightweightAlignment.ofSegment a).key).getD []) ⟨stored, a⟩)) =
      ↑(pairingReads st) + ↑(familyReads st) + {a} := by
  rw [pairingReads_pop hpd, groupReads_setAdd hpg0]
  rw [show familyReads st
      = st.family_dict.flatMap (fun e => groupReads e.2) from rfl]
  cases hf : dictLookup st.family_dict (LightweightAlignment.ofSegment a).key with
  | none =>
      rw [dictErase_of_lookup_none hf]
      simp only [Option.getD_none]
      rw [show groupReads ([] : CoordGroup) = [] from rfl]
      simp only [List.nil_append, ← Multiset.cons_coe, ← Multiset.coe_add,
        ← Multiset.singleton_add, Multiset.coe_nil]
      abel
  | some gg =>
      rw [famReads_of_lookup_some hf]
      simp only [Option.getD_some]
      simp only [← Multiset.cons_coe, ← Multiset.coe_add,
        ← Multiset.singleton_add, Multiset.coe_nil]
      abel

/-- The reads contributed by an optional yield. -/
def yReads (y : Option (CoordinateKey × CoordGroup)) : List AlignedSegment :=
  match y with
  | some kg => groupReads kg.2
  | none => []

/-- The mate-completion branch of the loop body: the step succeeds, preserves
the invariant, and conserves reads. -/
theorem famC3_step_pair
    (segs done rest : List AlignedSegment) (a : AlignedSegment) (st : FamState)
    (stored : AlignedSegment)
    (hsplit : segs = done ++ a :: rest)
    (hwf : WellFormed segs)
    (hinv : FamInv segs done st)
    (hpd : dictLookup st.pairing_dict a.query_name = some stored) :
    ∃ (st' : FamState) (y : Option (CoordinateKey × CoordGroup)),
      famStep st a = .ok st' y ∧
      FamInv segs (done ++ [a]) st' ∧
      (pairingReads st' : Multiset AlignedSegment) + ↑(familyReads st') +
          ↑(yReads y) =
        ↑(pairingReads st) + ↑(familyReads st) + {a} := by
  have hamem : a ∈ segs := by simp [hsplit]
  have hocc1 : occN a.query_name done = 1 :=
    (hinv.pairSome a.query_name).mp (by rw [hpd]; rfl)
  obtain ⟨hstored_done, hstored_name⟩ := hinv.pairVal _ _ hpd
  obtain ⟨l0, hl0raw, hn0l0⟩ :=
    buildManifest_mem (segs.map LightweightAlignment.ofSegment) []
      (LightweightAlignment.ofSegment a)
      (Or.inl (List.mem_map_of_mem _ hamem))
  have hl0 : dictLookup (buildCoordinateReadNameManifest
      (segs.map LightweightAlignment.ofSegment))
      (LightweightAlignment.ofSegment a).key = some l0 := hl0raw
  have hl0nd : l0.Nodup :=
    buildManifest_nodup _ [] (fun k l h => by cases h) _ _ hl0raw
  have howed : dictLookup st.manifest (LightweightAlignment.ofSegment a).key =
      some (l0.filter fun n => !decide (occN n done = 2)) := by
    rw [hinv.man _, hl0]
    rfl
  have hmemowed : a.query_name ∈ l0.filter (fun n => !decide (occN n done = 2)) :=
    List.mem_filter.mpr ⟨hn0l0, by rw [hocc1]; rfl⟩
  have hother : ∀ k, k ≠ (LightweightAlignment.ofSegment a).key →
      ∀ (l : List String) (n : String),
        dictLookup (buildCoordinateReadNameManifest
          (segs.map LightweightAlignment.ofSegment)) k = some l →
        n ∈ l → n ≠ a.query_name := by
    intro k hk l n hl hn hc
    rcases buildManifest_names _ [] k l n hl hn with ⟨l0x, h0, _⟩ | ⟨lw, hlw, hkeq, hneq⟩
    · cases h0
    · obtain ⟨s, hs, rfl⟩ := List.mem_map.mp hlw
      apply hk
      rw [← hkeq]
      refine hwf.2 s hs a hamem ?_
      rw [show (LightweightAlignment.ofSegment s).name = s.query_name from rfl] at hneq
      rw [hneq, hc]
  have hocc_done' : occN a.query_name (done ++ [a]) = 2 := by
    rw [occN_snoc, if_pos rfl, hocc1]
  have hocc_other : ∀ n, a.query_name ≠ n →
      occN n (done ++ [a]) = occN n done := by
    intro n hn
    rw [occN_snoc, if_neg hn]
    simp
  have hpg0 : (⟨stored, a⟩ : PairedAlignment) ∉
      (dictLookup st.family_dict (LightweightAlignment.ofSegment a).key).getD [] := by
    cases hf : dictLookup st.family_dict (LightweightAlignment.ofSegment a).key with
    | none => simp
    | some g =>
        intro hp
        simp only [Option.getD_some] at hp
        have h2 := hinv.famOcc _ g hf _ hp
        rw [show (⟨stored, a⟩ : PairedAlignment).left_alignment = stored from rfl,
          hstored_name, hocc1] at h2
        exact absurd h2 (by decide)
  have hman' : ∀ k, dictLookup (dictInsert st.manifest
        (LightweightAlignment.ofSegment a).key
        ((l0.filter fun n => !decide (occN n done = 2)).erase a.query_name)) k =
      (dictLookup (buildCoordinateReadNameManifest
        (segs.map LightweightAlignment.ofSegment)) k).map
        (fun l => l.filter fun n => !decide (occN n (done ++ [a]) = 2)) := by
    intro k
    by_cases hk : (LightweightAlignment.ofSegment a).key = k
    · subst hk
      rw [dictLookup_insert_self, hl0]
      simp only [Option.map_some']
      congr 1
      rw [(hl0nd.filter _).erase_eq_filter, List.filter_filter]
      apply List.filter_congr
      intro n hn
      by_cases hnn : a.query_name = n
      · subst hnn
        simp [hocc_done']
      · rw [hocc_other n hnn]
        have hbne : (n != a.query_name) = true :=
          bne_iff_ne.mpr fun h => hnn h.symm
        rw [hbne]
        simp
    · rw [dictLookup_insert_ne _ _ hk, hinv.man k]
      cases hmk : dictLookup (buildCoordinateReadNameManifest
          (segs.map LightweightAlignment.ofSegment)) k with
      | none => rfl
      | some lk =>
          simp only [Option.map_some']
          congr 1
          apply List.filter_congr
          intro n hn
          have hne : n ≠ a.query_name := hother k (fun h => hk h.symm) lk n hmk hn
          rw [hocc_other n fun h => hne h.symm]
  have hpairSome' : ∀ n : String,
      (dictLookup (dictErase st.pairing_dict a.query_name) n).isSome ↔
        occN n (done ++ [a]) = 1 := by
    intro n
    by_cases hn : a.query_name = n
    · subst hn
      rw [dictLookup_erase_self _ _ hinv.ndP, hocc_done']
      simp
    · rw [dictLookup_erase_ne _ hn, hocc_other n hn]
      exact hinv.pairSome n
  have hpairVal' : ∀ (n : String) (s : AlignedSegment),
      dictLookup (dictErase st.pairing_dict a.query_name) n = some s →
        s ∈ done ++ [a] ∧ s.query_name = n := by
    intro n s h
    by_cases hn : a.query_name = n
    · subst hn
      rw [dictLookup_erase_self _ _ hinv.ndP] at h
      cases h
    · rw [dictLookup_erase_ne _ hn] at h
      obtain ⟨h1, h2⟩ := hinv.pairVal n s h
      exact ⟨List.mem_append_left _ h1, h2⟩
  have hnotname : ∀ q : PairedAlignment,
      occN q.left_alignment.query_name done = 2 →
        a.query_name ≠ q.left_alignment.query_name := by
    intro q h2 he
    rw [← he, hocc1] at h2
    exact absurd h2 (by decide)
  have hfamOcc' : ∀ (k : CoordinateKey) (g : CoordGroup),
      dictLookup (dictInsert st.family_dict
        (LightweightAlignment.ofSegment a).key
        (setAdd ((dictLookup st.family_dict
          (LightweightAlignment.ofSegment a).key).getD []) ⟨stored, a⟩)) k =
        some g → ∀ q ∈ g, occN q.left_alignment.query_name (done ++ [a]) = 2 := by
    intro k g h q hq
    by_cases hk : (LightweightAlignment.ofSegment a).key = k
    · subst hk
      rw [dictLookup_insert_self] at h
      obtain rfl : setAdd ((dictLookup st.family_dict
          (LightweightAlignment.ofSegment a).key).getD []) ⟨stored, a⟩ = g := by
        simpa using h
      rcases (mem_setAdd _ _ _).mp hq with hq | rfl
      · cases hf : dictLookup st.family_dict
            (LightweightAlignment.ofSegment a).key with
        | none =>
            rw [hf] at hq
            simp at hq
        | some gg =>
            rw [hf] at hq
            simp only [Option.getD_some] at hq
            have h2 := hinv.famOcc _ gg hf q hq
            rw [hocc_other _ (hnotname q h2)]
            exact h2
      · rw [show (⟨stored, a⟩ : PairedAlignment).left_alignment = stored from rfl,
          hstored_name, hocc_done']
    · rw [dictLookup_insert_ne _ _ hk] at h
      have h2 := hinv.famOcc k g h q hq
      rw [hocc_other _ (hnotname q h2)]
      exact h2
  have hbalance := famC3_reads_balance st a stored hpd hpg0
  by_cases hempty :
      (l0.filter fun n => !decide (occN n done = 2)).erase a.query_name = []
  · -- the set empties: the group is yielded
    refine ⟨_, _, famStep_pair_eval_yield hpd howed hmemowed hempty, ?_, ?_⟩
    · refine ⟨nodupKeys_erase _ _ hinv.ndP,
        nodupKeys_erase _ _ (nodupKeys_insert _ _ _ hinv.ndF),
        hpairSome', hpairVal', hman', ?_, ?_⟩
      · intro k g h q hq
        dsimp only at h
        by_cases hk : (LightweightAlignment.ofSegment a).key = k
        · subst hk
          rw [dictLookup_erase_self _ _ (nodupKeys_insert _ _ _ hinv.ndF)] at h
          cases h
        · rw [dictLookup_erase_ne _ hk] at h
          exact hfamOcc' k g h q hq
      · intro k g h
        dsimp only at h
        by_cases hk : (LightweightAlignment.ofSegment a).key = k
        · subst hk
          rw [dictLookup_erase_self _ _ (nodupKeys_insert _ _ _ hinv.ndF)] at h
          cases h
        · rw [dictLookup_erase_ne _ hk, dictLookup_insert_ne _ _ hk] at h
          obtain ⟨l, hl, hlne⟩ := hinv.famMan k g h
          refine ⟨l, ?_, hlne⟩
          dsimp only
          rw [dictLookup_insert_ne _ _ hk]
          exact hl
    · show (((dictErase st.pairing_dict a.query_name).map Prod.snd :
          List AlignedSegment) : Multiset AlignedSegment) +
          ↑((dictErase (dictInsert st.family_dict
            (LightweightAlignment.ofSegment a).key
            (setAdd ((dictLookup st.family_dict
              (LightweightAlignment.ofSegment a).key).getD []) ⟨stored, a⟩))
            (LightweightAlignment.ofSegment a).key).flatMap
              fun e => groupReads e.2) +
          ↑(groupReads (setAdd ((dictLookup st.family_dict
            (LightweightAlignment.ofSegment a).key).getD []) ⟨stored, a⟩)) =
        ↑(pairingReads st) + ↑(familyReads st) + {a}
      rw [dictErase_insert]
      exact hbalance
  · -- the set stays nonempty: no yield
    refine ⟨_, _, famStep_pair_eval_noyield hpd howed hmemowed hempty, ?_, ?_⟩
    · refine ⟨nodupKeys_erase _ _ hinv.ndP,
        nodupKeys_insert _ _ _ hinv.ndF,
        hpairSome', hpairVal', hman', hfamOcc', ?_⟩
      · intro k g h
        dsimp only at h
        by_cases hk : (LightweightAlignment.ofSegment a).key = k
        · subst hk
          refine ⟨(l0.filter fun n => !decide (occN n done = 2)).erase a.query_name,
            ?_, hempty⟩
          dsimp only
          rw [dictLookup_insert_self]
        · rw [dictLookup_insert_ne _ _ hk] at h
          obtain ⟨l, hl, hlne⟩ := hinv.famMan k g h
          refine ⟨l, ?_, hlne⟩
          dsimp only
          rw [dictLookup_insert_ne _ _ hk]
          exact hl
    · show (((dictErase st.pairing_dict a.query_name).map Prod.snd :
          List AlignedSegment) : Multiset AlignedSegment) +
          ↑((dictInsert st.family_dict (LightweightAlignment.ofSegment a).key
            (setAdd ((dictLookup st.family_dict
              (LightweightAlignment.ofSegment a).key).getD []) ⟨stored, a⟩)).flatMap
              fun e => groupReads e.2) +
          ↑(([] : List AlignedSegment)) =
        ↑(pairingReads st) + ↑(familyReads st) + {a}
      rw [famReads_insert]
      rw [← hbalance]
      simp only [Multiset.coe_nil]
      abel

/-- One loop iteration on well-formed input: never a `KeyError`, invariant
preserved, reads conserved. -/
theorem famC3_step
    (segs done rest : List AlignedSegment) (a : AlignedSegment) (st : FamState)
    (hsplit : segs = done ++ a :: rest)
    (hwf : WellFormed segs)
    (hinv : FamInv segs done st) :
    ∃ (st' : FamState) (y : Option (CoordinateKey × CoordGroup)),
      famStep st a = .ok st' y ∧
      FamInv segs (done ++ [a]) st' ∧
      (pairingReads st' : Multiset AlignedSegment) + ↑(familyReads st') +
          ↑(yReads y) =
        ↑(pairingReads st) + ↑(familyReads st) + {a} := by
  cases hpd : dictLookup st.pairing_dict a.query_name with
  | none =>
      obtain ⟨st', hstep, hinv', hpr, hfr⟩ :=
        famC3_step_store segs done rest a st hsplit hwf hinv hpd
      refine ⟨st', none, hstep, hinv', ?_⟩
      rw [hpr, hfr]
      rw [show yReads none = ([] : List AlignedSegment) from rfl]
      simp only [← Multiset.coe_add, Multiset.coe_nil, Multiset.coe_singleton]
      abel
  | some stored =>
      exact famC3_step_pair segs done rest a st stored hsplit hwf hinv hpd

theorem yieldReads_cons_ok (st' : FamState)
    (y : Option (CoordinateKey × CoordGroup)) (tr : List StepOut) :
    yieldReads (traceYields (.ok st' y :: tr)) =
      yReads y ++ yieldReads (traceYields tr) := by
  cases y with
  | none => rfl
  | some kg =>
      show yieldReads (kg :: traceYields tr) = _
      unfold yieldReads
      rw [List.flatMap_cons]
      rfl

/-- Running the rest of the pass from an invariant-satisfying state: no
`KeyError`, invariant at the end, and reads conserved. -/
theorem famC3_run :
    ∀ (todo done : List AlignedSegment) (st : FamState),
      WellFormed (done ++ todo) →
      FamInv (done ++ todo) done st →
      (∀ o ∈ famTrace todo st, ∀ stE : FamState, o ≠ .err stE) ∧
      FamInv (done ++ todo) (done ++ todo) (famFinal todo st) ∧
      ((pairingReads (famFinal todo st) : Multiset AlignedSegment) +
          ↑(familyReads (famFinal todo st)) +
          ↑(yieldReads (traceYields (famTrace todo st))) =
        ↑(pairingReads st) + ↑(familyReads st) + ↑todo) := by
  intro todo
  induction todo with
  | nil =>
      intro done st hwf hinv
      refine ⟨?_, ?_, ?_⟩
      · intro o ho
        simp [famTrace] at ho
      · simpa using hinv
      · show (pairingReads st : Multiset AlignedSegment) + ↑(familyReads st) +
            ↑(yieldReads []) = _
        simp [yieldReads]
  | cons a rest ih =>
      intro done st hwf hinv
      obtain ⟨st', y, hstep, hinv', hbal⟩ :=
        famC3_step (done ++ a :: rest) done rest a st rfl hwf hinv
      have heq : (done ++ [a]) ++ rest = done ++ a :: rest := by simp
      have hwf2 : WellFormed ((done ++ [a]) ++ rest) := by rw [heq]; exact hwf
      have hinv2 : FamInv ((done ++ [a]) ++ rest) (done ++ [a]) st' := by
        rw [heq]
        exact hinv'
      obtain ⟨ihA, ihB, ihC⟩ := ih (done ++ [a]) st' hwf2 hinv2
      have htr : famTrace (a :: rest) st = .ok st' y :: famTrace rest st' := by
        rw [famTrace, hstep]
      have hfin : famFinal (a :: rest) st = famFinal rest st' := by
        rw [famFinal, hstep]
      refine ⟨?_, ?_, ?_⟩
      · intro o ho stE hoeq
        rw [htr] at ho
        rcases List.mem_cons.mp ho with ho | ho
        · rw [ho] at hoeq
          cases hoeq
        · exact ihA o ho stE hoeq
      · rw [hfin]
        rw [heq] at ihB
        exact ihB
      · rw [hfin, htr, yieldReads_cons_ok]
        rw [show ((yReads y ++ yieldReads (traceYields (famTrace rest st')) :
              List AlignedSegment) : Multiset AlignedSegment)
            = ↑(yReads y) + ↑(yieldReads (traceYields (famTrace rest st')))
            from by rw [← Multiset.coe_add]]
        rw [show ((a :: rest : List AlignedSegment) : Multiset AlignedSegment)
            = {a} + ↑rest from by rw [← Multiset.cons_coe, ← Multiset.singleton_add]]
        calc (pairingReads (famFinal rest st') : Multiset AlignedSegment) +
              ↑(familyReads (famFinal rest st')) +
              (↑(yReads y) + ↑(yieldReads (traceYields (famTrace rest st'))))
            = (pairingReads (famFinal rest st') : Multiset AlignedSegment) +
                ↑(familyReads (famFinal rest st')) +
                ↑(yieldReads (traceYields (famTrace rest st'))) +
                ↑(yReads y) := by abel
          _ = ↑(pairingReads st') + ↑(familyReads st') + ↑rest + ↑(yReads y) := by
                rw [ihC]
          _ = ↑(pairingReads st') + ↑(familyReads st') + ↑(yReads y) + ↑rest := by
                abel
          _ = ↑(pairingReads st) + ↑(familyReads st) + {a} + ↑rest := by rw [hbal]
          _ = ↑(pairingReads st) + ↑(familyReads st) + ({a} + ↑rest) := by abel

/-- After consuming a whole well-formed input, both working maps are empty:
everything has been yielded. -/
theorem famInv_final (segs : List AlignedSegment) (hwf : WellFormed segs)
    (st : FamState) (hinv : FamInv segs segs st) :
    pairingReads st = [] ∧ familyReads st = [] := by
  constructor
  · cases hp : st.pairing_dict with
    | nil =>
        show (st.pairing_dict.map Prod.snd) = []
        rw [hp]
        rfl
    | cons e restp =>
        exfalso
        obtain ⟨n, sv⟩ := e
        have hl : dictLookup st.pairing_dict n = some sv := by
          rw [hp]
          exact dictLookup_cons_self _ _ _
        have h1 : occN n segs = 1 := (hinv.pairSome n).mp (by rw [hl]; rfl)
        obtain ⟨hs1, hs2⟩ := hinv.pairVal n sv hl
        have h2 : occN sv.query_name segs = 2 := hwf.1 sv hs1
        rw [hs2, h1] at h2
        exact absurd h2 (by decide)
  · cases hf : st.family_dict with
    | nil =>
        show (st.family_dict.flatMap fun e => groupReads e.2) = []
        rw [hf]
        rfl
    | cons e restf =>
        exfalso
        obtain ⟨k, g⟩ := e
        have hl : dictLookup st.family_dict k = some g := by
          rw [hf]
          exact dictLookup_cons_self _ _ _
        obtain ⟨l, hml, hlne⟩ := hinv.famMan k g hl
        rw [hinv.man k] at hml
        cases hmk : dictLookup (buildCoordinateReadNameManifest
            (segs.map LightweightAlignment.ofSegment)) k with
        | none =>
            rw [hmk] at hml
            cases hml
        | some l0 =>
            rw [hmk] at hml
            simp only [Option.map_some', Option.some.injEq] at hml
            obtain ⟨n, hn⟩ := List.exists_mem_of_ne_nil l hlne
            rw [← hml] at hn
            obtain ⟨hnl0, hnp⟩ := List.mem_filter.mp hn
            rcases buildManifest_names _ [] k l0 n hmk hnl0 with ⟨lx, h0, _⟩ | ⟨lw, hlw, hkeq, hneq⟩
            · cases h0
            · obtain ⟨sv, hs, rfl⟩ := List.mem_map.mp hlw
              have h2 : occN sv.query_name segs = 2 := hwf.1 sv hs
              rw [show (LightweightAlignment.ofSegment sv).name = sv.query_name
                from rfl] at hneq
              rw [← hneq] at hnp
              rw [h2] at hnp
              simp at hnp

/-- C3: on well-formed input the pass raises no exception, and the reads in
the yielded coordinate groups are exactly the input reads — same total
count, each read consumed into exactly one `PairedAlignment` of exactly one
yielded group (multiset equality). -/
theorem C3_reads_conserved (segs : List AlignedSegment) (hwf : WellFormed segs) :
    (∀ o ∈ famTrace segs
        (initState (buildCoordinateReadNameManifest
          (segs.map LightweightAlignment.ofSegment))),
      ∀ stE : FamState, o ≠ .err stE) ∧
      (yieldReads (traceYields (famTrace segs
        (initState (buildCoordinateReadNameManifest
          (segs.map LightweightAlignment.ofSegment)))))).length = segs.length ∧
      List.Perm
        (yieldReads (traceYields (famTrace segs
          (initState (buildCoordinateReadNameManifest
            (segs.map LightweightAlignment.ofSegment))))))
        segs := by
  obtain ⟨hnoerr, hinvf, hbal⟩ :=
    famC3_run segs []
      (initState (buildCoordinateReadNameManifest
        (segs.map LightweightAlignment.ofSegment)))
      (by simpa using hwf) (famInv_init segs)
  obtain ⟨hpnil, hfnil⟩ := famInv_final segs hwf _ (by simpa using hinvf)
  rw [hpnil, hfnil] at hbal
  rw [show pairingReads (initState (buildCoordinateReadNameManifest
      (segs.map LightweightAlignment.ofSegment))) = [] from rfl] at hbal
  rw [show familyReads (initState (buildCoordinateReadNameManifest
      (segs.map LightweightAlignment.ofSegment))) = [] from rfl] at hbal
  simp only [Multiset.coe_nil, zero_add] at hbal
  have hperm := Multiset.coe_eq_coe.mp hbal
  exact ⟨hnoerr, hperm.length_eq, hperm⟩

/-- C3 witness: the two-read input is well-formed, and its one yielded group
contains exactly the two input reads. -/
theorem C3_witness :
    List.Perm
      (yieldReads (traceYields (famTrace onePairSegs
        (initState (buildCoordinateReadNameManifest
          (onePairSegs.map LightweightAlignment.ofSegment))))))
      onePairSegs :=
  (C3_reads_conserved onePairSegs (by decide)).2.2
